import Mathlib

/-!
Verification of the itinerary response-recovery pipeline of
`src/services/geminiService.ts`.

JavaScript strings are modelled as `List Char` (the pipeline-level record
fields use `String`, which in Lean is a wrapper around `List Char`).
Known, deliberate modelling approximations (none of which decides a claim):
* the JS regex whitespace class and `String.prototype.trim` whitespace set are
  modelled by `isJsSpace` (the common whitespace characters); the JSON parser
  uses the exact JSON whitespace set (space, tab, LF, CR);
* JSON numbers are modelled as exact rationals rather than IEEE doubles;
* `\uXXXX` escapes denoting lone surrogates are mapped through `Char.ofNat`
  (parse success/failure is faithful; only the stored code unit differs).
-/

namespace ItineraryPipeline

/-- The backtick character, written via its code point. -/
def btick : Char := Char.ofNat 96

/-- Whitespace, as matched by the `\s*` part of the fence regex and by
`String.prototype.trim` (line 11 of geminiService.ts). -/
def isJsSpace (c : Char) : Bool :=
  c == ' ' || c == '\t' || c == '\n' || c == '\r' || c == '\x0b' ||
  c == '\x0c' || c == Char.ofNat 0xa0 || c == Char.ofNat 0xfeff ||
  c == Char.ofNat 0x2028 || c == Char.ofNat 0x2029

/-- Whether the first list is a literal prefix of the second. -/
def strStarts : List Char → List Char → Bool
  | [], _ => true
  | _ :: _, [] => false
  | p :: ps, c :: cs => p == c && strStarts ps cs

/-- Whether `needle` occurs as a contiguous substring of `hay`
(models `String.prototype.includes`). -/
def strIncludes (needle : List Char) : List Char → Bool
  | [] => strStarts needle []
  | c :: cs => strStarts needle (c :: cs) || strIncludes needle cs

/-- Index of the first occurrence of `c` (models `String.prototype.indexOf`,
with `none` for `-1`). -/
def idxOf? (c : Char) : List Char → Option Nat
  | [] => none
  | x :: xs => if x == c then some 0 else (idxOf? c xs).map (· + 1)

/-- Index of the last occurrence of `c` (models
`String.prototype.lastIndexOf`, with `none` for `-1`). -/
def lastIdxOf? (c : Char) : List Char → Option Nat
  | [] => none
  | x :: xs =>
    match lastIdxOf? c xs with
    | some j => some (j + 1)
    | none => if x == c then some 0 else none

/-- After a fence marker, the regex of line 11 consumes an optional language
tag: the alternation `(?:json|javascript|text)?`, tried in that order. -/
def dropTag (cs : List Char) : List Char :=
  if strStarts "json".toList cs then cs.drop 4
  else if strStarts "javascript".toList cs then cs.drop 10
  else if strStarts "text".toList cs then cs.drop 4
  else cs

/-- After the optional tag, the regex consumes `\s*` (greedy whitespace). -/
def dropWS (cs : List Char) : List Char := cs.dropWhile isJsSpace

/-- Whether the list begins with a backtick. -/
def headIsBtick : List Char → Bool
  | [] => false
  | c :: _ => c == btick

/-- Whether the list begins with two backticks. -/
def startsTwoBticks : List Char → Bool
  | [] => false
  | c :: rest => c == btick && headIsBtick rest

/-- Fuel-indexed model of
`input.replace(/(three backticks)(?:json|javascript|text)?\s*|(three backticks)/g, '')`
(line 11): scan left to right; at each occurrence of three backticks remove
them together with an optional language tag and following whitespace, then
continue scanning after the removed span (the removed pieces are never
rescanned, exactly as in a global regex replace).  One unit of fuel is spent
per character position, so fuel `length + 1` always suffices. -/
def removeFencesF : Nat → List Char → List Char
  | 0, _ => []
  | _ + 1, [] => []
  | f + 1, a :: rest =>
    if a == btick && startsTwoBticks rest then
      removeFencesF f (dropWS (dropTag (rest.drop 2)))
    else
      a :: removeFencesF f rest

/-- The fence-removal pass of `extractJsonFromString` (line 11). -/
def removeFences (cs : List Char) : List Char := removeFencesF (cs.length + 1) cs

/-- Model of `String.prototype.trim` (drop leading and trailing whitespace). -/
def jsTrim (cs : List Char) : List Char :=
  ((cs.dropWhile isJsSpace).reverse.dropWhile isJsSpace).reverse

/-- Whether the list contains three consecutive backticks anywhere. -/
def hasTriple : List Char → Bool
  | [] => false
  | a :: rest => (a == btick && startsTwoBticks rest) || hasTriple rest

/-- Runtime JSON values, as produced by `JSON.parse`.  Numbers are kept as
exact rationals; object fields are kept in source order (duplicate keys are
resolved by `lookupLast`, matching the last-assignment-wins semantics of
`JSON.parse`). -/
inductive Json where
  | null : Json
  | bool (b : Bool) : Json
  | num (q : ℚ) : Json
  | str (s : String) : Json
  | arr (elems : List Json) : Json
  | obj (fields : List (String × Json)) : Json

/-- Last binding of key `k`, mirroring that a later duplicate key in a JSON
object text overwrites an earlier one. -/
def lookupLast (k : String) : List (String × Json) → Option Json
  | [] => none
  | (k', v) :: rest =>
    match lookupLast k rest with
    | some r => some r
    | none => if k' == k then some v else none

/-- JavaScript property access `v[k]`: defined bindings on objects, and
`undefined` (modelled as `none`) on every non-object value. -/
def getProp (v : Json) (k : String) : Option Json :=
  match v with
  | .obj fields => lookupLast k fields
  | _ => none

/-- JavaScript truthiness of a JSON value. -/
def jsTruthy : Json → Bool
  | .null => false
  | .bool b => b
  | .num q => !(q == 0)
  | .str s => !(s == "")
  | .arr _ => true
  | .obj _ => true

/-- Truthiness of a possibly-`undefined` value. -/
def jsTruthyOpt : Option Json → Bool
  | none => false
  | some v => jsTruthy v

/-- Model of `Array.isArray` applied to a possibly-`undefined` value. -/
def isJsArrayOpt : Option Json → Bool
  | some (.arr _) => true
  | _ => false

/-! The JSON parser below models `JSON.parse` on the ECMA-404 grammar:
whitespace is exactly space, tab, LF, CR; strings require closing quotes,
forbid raw control characters and support the JSON escapes; numbers follow
`-? int frac? exp?` with no leading zeros; a trailing non-whitespace
character makes the whole parse fail.  It is written with a structurally
decreasing fuel argument so that the kernel can evaluate it; fuel is spent
strictly faster than input is consumed, so the generous initial fuel in
`jsonParse` never runs out on any input. -/

/-- JSON whitespace (exactly the four characters of the JSON grammar). -/
def jsonWSChar (c : Char) : Bool :=
  c == ' ' || c == '\t' || c == '\n' || c == '\r'

/-- Skip JSON whitespace. -/
def skipWS (cs : List Char) : List Char := cs.dropWhile jsonWSChar

/-- Numeric value of a decimal digit character. -/
def digitVal (c : Char) : Nat := c.toNat - 48

/-- Value of a list of decimal digit characters. -/
def digitsToNat (ds : List Char) : Nat :=
  ds.foldl (fun acc c => acc * 10 + digitVal c) 0

/-- Parse the integer part of a JSON number: a single `0`, or a nonzero
digit followed by digits (leading zeros are a syntax error in JSON). -/
def parseIntPart : List Char → Option (Nat × List Char)
  | [] => none
  | c :: rest =>
    if c == '0' then some (0, rest)
    else if c.isDigit then
      some (digitsToNat (c :: rest.takeWhile Char.isDigit),
            rest.dropWhile Char.isDigit)
    else none

/-- Parse the optional fraction part, returning (value, digit count, rest). -/
def parseFracPart : List Char → Option (Nat × Nat × List Char)
  | '.' :: rest =>
    let ds := rest.takeWhile Char.isDigit
    if ds.isEmpty then none
    else some (digitsToNat ds, ds.length, rest.dropWhile Char.isDigit)
  | cs => some (0, 0, cs)

/-- Parse the optional exponent part, returning (exponent, rest). -/
def parseExpPart : List Char → Option (Int × List Char)
  | c :: rest =>
    if c == 'e' || c == 'E' then
      let (sign, rest1) : Int × List Char :=
        match rest with
        | '+' :: r => (1, r)
        | '-' :: r => (-1, r)
        | r => (1, r)
      let ds := rest1.takeWhile Char.isDigit
      if ds.isEmpty then none
      else some (sign * (digitsToNat ds : Int), rest1.dropWhile Char.isDigit)
    else some (0, c :: rest)
  | [] => some (0, [])

/-- Exact rational value of a decoded JSON number literal
`(-1)^neg * (i + fv / 10^fl) * 10^e`, built from core `Rat` primitives. -/
def jsonNumVal (neg : Bool) (i fv fl : Nat) (e : Int) : ℚ :=
  let mant : Int := (if neg then -1 else 1) * Int.ofNat (i * Nat.pow 10 fl + fv)
  if 0 ≤ e then mkRat (mant * Int.ofNat (Nat.pow 10 e.toNat)) (Nat.pow 10 fl)
  else mkRat mant (Nat.pow 10 fl * Nat.pow 10 (-e).toNat)

/-- Parse a JSON number literal into an exact rational. -/
def parseNumber (cs : List Char) : Option (Json × List Char) :=
  let (neg, cs0) : Bool × List Char :=
    match cs with
    | '-' :: r => (true, r)
    | r => (false, r)
  match parseIntPart cs0 with
  | none => none
  | some (i, cs1) =>
    match parseFracPart cs1 with
    | none => none
    | some (fv, fl, cs2) =>
      match parseExpPart cs2 with
      | none => none
      | some (e, cs3) => some (.num (jsonNumVal neg i fv fl e), cs3)

/-- Whether a character is a hexadecimal digit. -/
def isHexDigit (c : Char) : Bool :=
  c.isDigit || ('a' ≤ c && c ≤ 'f') || ('A' ≤ c && c ≤ 'F')

/-- Value of a hexadecimal digit character. -/
def hexVal (c : Char) : Nat :=
  if c.isDigit then c.toNat - 48
  else if 'a' ≤ c && c ≤ 'f' then c.toNat - 87
  else c.toNat - 55

/-- Parse the body of a JSON string after the opening quote, accumulating
characters in reverse.  Raw control characters are rejected; the standard
escapes and `\uXXXX` are accepted. -/
def parseStringBody : List Char → List Char → Option (String × List Char)
  | [], _ => none
  | c :: rest, acc =>
    if c == '"' then some (String.mk acc.reverse, rest)
    else if c == '\\' then
      match rest with
      | '"' :: r => parseStringBody r ('"' :: acc)
      | '\\' :: r => parseStringBody r ('\\' :: acc)
      | '/' :: r => parseStringBody r ('/' :: acc)
      | 'b' :: r => parseStringBody r ('\x08' :: acc)
      | 'f' :: r => parseStringBody r ('\x0c' :: acc)
      | 'n' :: r => parseStringBody r ('\n' :: acc)
      | 'r' :: r => parseStringBody r ('\r' :: acc)
      | 't' :: r => parseStringBody r ('\t' :: acc)
      | 'u' :: h1 :: h2 :: h3 :: h4 :: r =>
        if isHexDigit h1 && isHexDigit h2 && isHexDigit h3 && isHexDigit h4 then
          parseStringBody r
            (Char.ofNat (((hexVal h1 * 16 + hexVal h2) * 16 + hexVal h3) * 16 + hexVal h4) :: acc)
        else none
      | _ => none
    else if c.toNat < 0x20 then none
    else parseStringBody rest (c :: acc)

mutual

/-- Fuel-indexed recursive-descent JSON value parser.  `parseValueF` parses a
value whose first character is at the head of the input (callers skip
whitespace first); `parseMembersF`/`parseElemsF` parse the comma-separated
interiors of objects and arrays. -/
def parseValueF : Nat → List Char → Option (Json × List Char)
  | 0, _ => none
  | _ + 1, [] => none
  | f + 1, c :: rest =>
    if c == '{' then
      match skipWS rest with
      | '}' :: r => some (.obj [], r)
      | r => parseMembersF f r []
    else if c == '[' then
      match skipWS rest with
      | ']' :: r => some (.arr [], r)
      | r => parseElemsF f r []
    else if c == '"' then
      (parseStringBody rest []).map (fun p => (.str p.1, p.2))
    else if c == 't' then
      if strStarts "rue".toList rest then some (.bool true, rest.drop 3) else none
    else if c == 'f' then
      if strStarts "alse".toList rest then some (.bool false, rest.drop 4) else none
    else if c == 'n' then
      if strStarts "ull".toList rest then some (.null, rest.drop 3) else none
    else parseNumber (c :: rest)

/-- Parse object members `"key" : value (, ...)* closing-brace`. -/
def parseMembersF : Nat → List Char → List (String × Json) → Option (Json × List Char)
  | 0, _, _ => none
  | f + 1, cs, acc =>
    match cs with
    | '"' :: rest =>
      match parseStringBody rest [] with
      | none => none
      | some (k, r1) =>
        match skipWS r1 with
        | ':' :: r2 =>
          match parseValueF f (skipWS r2) with
          | none => none
          | some (v, r3) =>
            match skipWS r3 with
            | ',' :: r4 => parseMembersF f (skipWS r4) (acc ++ [(k, v)])
            | '}' :: r4 => some (.obj (acc ++ [(k, v)]), r4)
            | _ => none
        | _ => none
    | _ => none

/-- Parse array elements `value (, ...)* closing-bracket`. -/
def parseElemsF : Nat → List Char → List Json → Option (Json × List Char)
  | 0, _, _ => none
  | f + 1, cs, acc =>
    match parseValueF f cs with
    | none => none
    | some (v, r1) =>
      match skipWS r1 with
      | ',' :: r2 => parseElemsF f (skipWS r2) (acc ++ [v])
      | ']' :: r2 => some (.arr (acc ++ [v]), r2)
      | _ => none

end

/-- Model of `JSON.parse` as a partial function: `some v` on success and
`none` on a `SyntaxError`. -/
def jsonParse (cs : List Char) : Option Json :=
  match parseValueF (3 * cs.length + 3) (skipWS cs) with
  | none => none
  | some (v, rest) => if (skipWS rest).isEmpty then some v else none

/-- The candidate-selection part of `extractJsonFromString`
(geminiService.ts lines 8-46): remove fences and trim (line 11), find the
first opening delimiter and record its kind (lines 17-30), find the last
matching closing delimiter (lines 32-39), guard the order (lines 41-44) and
slice the inclusive substring (line 46).  `none` models every `return null`
before the parse attempt. -/
def sliceCandidate (input : List Char) : Option (List Char) :=
  let cleanedInput := jsTrim (removeFences input)
  let firstBrace := idxOf? '{' cleanedInput
  let firstBracket := idxOf? '[' cleanedInput
  let firstCharIndex : Option Nat :=
    match firstBrace, firstBracket with
    | some b, none => some b
    | some b, some k => if b < k then some b else some k
    | none, some k => some k
    | none, none => none
  match firstCharIndex with
  | none => none
  | some i =>
    let lastCharIndex : Option Nat :=
      if cleanedInput[i]? = some '{' then lastIdxOf? '}' cleanedInput
      else if cleanedInput[i]? = some '[' then lastIdxOf? ']' cleanedInput
      else none
    match lastCharIndex with
    | none => none
    | some j =>
      if j < i then none
      else some ((cleanedInput.drop i).take (j + 1 - i))

/-- Model of `extractJsonFromString` (geminiService.ts lines 8-61): slice a
candidate, and return it exactly when it is truthy (non-empty) and
`JSON.parse` accepts it; on a parse failure return `null` with no repair
attempt (lines 48-58). -/
def extractJsonFromString (input : List Char) : Option (List Char) :=
  match sliceCandidate input with
  | none => none
  | some jsonCandidate =>
    if jsonCandidate.isEmpty then none
    else if (jsonParse jsonCandidate).isSome then some jsonCandidate
    else none


/-- The user's travel preferences (`TravelPreferences` in types.ts), as
destructured on geminiService.ts line 77.  Coordinates are optional numbers;
`budget` and `duration` are numbers entered as nonnegative integers by the
form and are modelled as `Nat`. -/
structure TravelPreferences where
  destination : String
  duration : Nat
  interests : String
  budget : Nat
  currency : String
  latitude : Option ℚ
  longitude : Option ℚ

/-- JavaScript truthiness of an optional number (used by the
`if (latitude && longitude)` check on line 97): absent and zero are falsy. -/
def numTruthy : Option ℚ → Bool
  | none => false
  | some q => !(q == 0)

/-- Line 97: Maps grounding is enabled exactly when both coordinates are
truthy. -/
def useMapsGroundingOf (p : TravelPreferences) : Bool :=
  numTruthy p.latitude && numTruthy p.longitude

/-- The tools that can be pushed onto the request's tool list
(lines 100 and 112). -/
inductive GenTool where
  | googleMaps : GenTool
  | googleSearch : GenTool
  deriving DecidableEq

/-- The parts of the `generateContent` request assembled on lines 92-158
that depend on the mode: the model identifier, the tool list, whether a
`retrievalConfig` tool configuration is attached, and whether
`responseMimeType`/`responseSchema` (the strict output-schema constraint)
are requested.  The static contents of the schema object itself
(lines 124-157) carry no mode-dependent information and are summarised by
the presence flag. -/
structure RequestConfig where
  model : String
  tools : List GenTool
  hasToolConfig : Bool
  responseMimeType : Option String
  hasResponseSchema : Bool
  deriving DecidableEq

/-- Mode selection and request assembly (geminiService.ts lines 92-158):
with truthy coordinates push the Maps tool, attach the retrieval
configuration and pick `gemini-2.5-flash`; otherwise pick
`gemini-3-pro-preview`; always push the search tool afterwards; request the
response schema exactly when Maps grounding is off (line 122). -/
def buildRequestConfig (p : TravelPreferences) : RequestConfig :=
  let useMapsGrounding := useMapsGroundingOf p
  let tools : List GenTool :=
    (if useMapsGrounding then [GenTool.googleMaps] else []) ++ [GenTool.googleSearch]
  { model := if useMapsGrounding then "gemini-2.5-flash" else "gemini-3-pro-preview"
    tools := tools
    hasToolConfig := useMapsGrounding
    responseMimeType := if useMapsGrounding then none else some "application/json"
    hasResponseSchema := !useMapsGrounding }

/-- A review snippet reference attached to a Maps grounding chunk
(line 229-231); its title may be absent. -/
structure ReviewSnippet where
  uri : String
  title : Option String

/-- The `placeAnswerSources` object of a Maps chunk (line 228); its
`reviewSnippets` array may be absent. -/
structure PlaceAnswerSources where
  reviewSnippets : Option (List ReviewSnippet)

/-- A web grounding chunk (lines 224-225). -/
structure WebChunk where
  uri : String
  title : Option String

/-- A Maps grounding chunk (lines 226-233). -/
structure MapsChunk where
  uri : String
  title : Option String
  placeAnswerSources : Option PlaceAnswerSources

/-- One grounding chunk; the `web` and `maps` members are each optional and
are tested in that order by the `if`/`else if` of lines 224-226. -/
structure GroundingChunk where
  web : Option WebChunk
  maps : Option MapsChunk

/-- A source citation `{ uri, title? }` as pushed into `sourceUrls`. -/
structure Citation where
  uri : String
  title : Option String
  deriving DecidableEq

/-- JavaScript `a || b` for an optional string value in truthy position
(line 231, `snippet.title || 'Review Link'`): the fallback is used when the
title is absent or empty. -/
def jsOrStr (a : Option String) (b : String) : String :=
  match a with
  | some t => if t == "" then b else t
  | none => b

/-- Citations contributed by a single grounding chunk (lines 224-234):
a web chunk yields one citation; otherwise a Maps chunk yields one citation
for the place followed by one per review snippet (whose title defaults to
`"Review Link"` when absent or empty); a chunk with neither member yields
nothing. -/
def chunkCitations (chunk : GroundingChunk) : List Citation :=
  match chunk.web with
  | some w => [{ uri := w.uri, title := w.title }]
  | none =>
    match chunk.maps with
    | some m =>
      { uri := m.uri, title := m.title } ::
        (match m.placeAnswerSources with
         | some pas =>
           match pas.reviewSnippets with
           | some snips =>
             snips.map (fun s => { uri := s.uri, title := some (jsOrStr s.title "Review Link") })
           | none => []
         | none => [])
    | none => []

/-- The `sourceUrls` accumulation loop over grounding chunks
(lines 221-236), written as the equivalent left-to-right concatenation of
each chunk's pushes. -/
def extractSourceUrls (chunks : List GroundingChunk) : List Citation :=
  chunks.foldl (fun acc c => acc ++ chunkCitations c) []

/-- Grounding metadata of a response candidate (line 222). -/
structure GroundingMetadata where
  groundingChunks : Option (List GroundingChunk)

/-- A response candidate (line 222). -/
structure Candidate where
  groundingMetadata : Option GroundingMetadata

/-- The parts of the `generateContent` response read by the pipeline:
`response.text` and the optional chain
`response.candidates?.[0]?.groundingMetadata?.groundingChunks`. -/
structure GenerateContentResponse where
  text : String
  candidates : List Candidate

/-- The guarded optional chain plus loop of lines 221-236: when any link of
the chain is missing (or the chunk list is absent) `sourceUrls` stays
empty. -/
def sourceUrlsOf (response : GenerateContentResponse) : List Citation :=
  match response.candidates.head? with
  | none => []
  | some c =>
    match c.groundingMetadata with
    | none => []
    | some gm =>
      match gm.groundingChunks with
      | none => []
      | some chunks => extractSourceUrls chunks

/-- The final `{ itineraryData, sourceUrls }` value (line 238).  At runtime
`itineraryData` is whatever `JSON.parse` produced (or the fallback object),
so it is modelled as a `Json` value. -/
structure ItineraryResult where
  itineraryData : Json
  sourceUrls : List Citation

/-- The fixed `notes` text of the fallback itinerary (lines 184 and 204). -/
def fallbackNotes : String :=
  "Itinerary tidak dapat diuraikan ke format terstruktur. Silakan lihat bagian ikhtisar untuk detail dan periksa tautan sumber."

/-- The `budgetSummary` template string of the fallback itinerary
(lines 185 and 205). -/
def budgetSummaryText (p : TravelPreferences) : String :=
  "Anggaran: " ++ Nat.repr p.budget ++ " " ++ p.currency ++ "."

/-- The fallback `GeneratedItinerary` object literal built on lines 178-186
and 198-206: destination and duration copied from the preferences, overview
set to the raw reply text, empty itinerary and packing lists, the fixed
notes text, and the synthesized budget summary. -/
def fallbackItinerary (p : TravelPreferences) (rawResponseText : String) : Json :=
  .obj [("destination", .str p.destination),
        ("duration", .num (p.duration : ℚ)),
        ("overview", .str rawResponseText),
        ("itinerary", .arr []),
        ("packingSuggestions", .arr []),
        ("notes", .str fallbackNotes),
        ("budgetSummary", .str (budgetSummaryText p))]

/-- The structural validity check applied to the parsed value on lines 193
and 212: `parsedItinerary` is truthy, its `destination` member is truthy,
and its `itinerary` member is an array. -/
def validStructure (parsed : Json) : Bool :=
  jsTruthy parsed && jsTruthyOpt (getProp parsed "destination") &&
    isJsArrayOpt (getProp parsed "itinerary")

/-- The error message thrown on line 217 for a Structured-mode structural
mismatch. -/
def invalidJsonMsg : String :=
  "Respons JSON tidak valid dari API, atau data terstruktur hilang."

/-- The known failure signature tested on line 242. -/
def notFoundSignature : String := "Requested entity was not found."

/-- The actionable credential-selection message thrown on line 243. -/
def apiKeyErrorMsg : String :=
  "Kunci API mungkin tidak valid atau tidak terpilih. Harap pastikan Anda telah memilih kunci API berbayar yang valid melalui dialog pemilihan kunci API."

/-- The generic wrapper prefix of line 246. -/
def genericErrorPrefix : String := "Kesalahan API Gemini: "

/-- The response-processing part of the `try` block (lines 170-238), given
the mode flag computed on line 97: trim the reply text, extract a JSON
candidate, and either fall back (extraction miss, or any Grounded-mode
parse/validation failure, lines 176-188 and 196-208), throw
(Structured-mode parse/validation failure, lines 209-219), or return the
parsed itinerary together with the normalized citations (lines 221-238).
`Except.error` carries the message of a thrown `Error`. -/
def processResponse (preferences : TravelPreferences) (useMapsGrounding : Bool)
    (response : GenerateContentResponse) : Except String ItineraryResult :=
  let rawResponseText := jsTrim response.text.data
  match extractJsonFromString rawResponseText with
  | none =>
    .ok { itineraryData := fallbackItinerary preferences (String.mk rawResponseText),
          sourceUrls := [] }
  | some cleanedJsonString =>
    if useMapsGrounding then
      match jsonParse cleanedJsonString with
      | some parsedItinerary =>
        if validStructure parsedItinerary then
          .ok { itineraryData := parsedItinerary, sourceUrls := sourceUrlsOf response }
        else
          .ok { itineraryData := fallbackItinerary preferences (String.mk rawResponseText),
                sourceUrls := [] }
      | none =>
        .ok { itineraryData := fallbackItinerary preferences (String.mk rawResponseText),
              sourceUrls := [] }
    else
      match jsonParse cleanedJsonString with
      | some parsedItinerary =>
        if validStructure parsedItinerary then
          .ok { itineraryData := parsedItinerary, sourceUrls := sourceUrlsOf response }
        else
          .error invalidJsonMsg
      | none => .error invalidJsonMsg

/-- Model of `generateItinerary` (lines 71-250).  The external
`ai.models.generateContent` call is the pipeline's only collaborator and is
passed in as its outcome: a response, or the message of the `Error` it
rejected with.  The `catch` block of lines 240-249 maps the known
credential-failure signature to the actionable message and wraps every
other error message in the generic localized prefix; it is applied to
failures of the call and of the body alike, exactly as in the source.  No
retry is performed anywhere. -/
def generateItinerary (preferences : TravelPreferences)
    (call : Except String GenerateContentResponse) : Except String ItineraryResult :=
  let body : Except String ItineraryResult :=
    match call with
    | .error e => .error e
    | .ok response => processResponse preferences (useMapsGroundingOf preferences) response
  match body with
  | .ok r => .ok r
  | .error msg =>
    if strIncludes notFoundSignature.data msg.data then .error apiKeyErrorMsg
    else .error (genericErrorPrefix ++ msg)

/-- Whether the extracted candidate parses and the parsed value passes the
structural validity check of lines 193/212; `false` is the
structural-mismatch outcome. -/
def parsedAndValid (cand : List Char) : Bool :=
  match jsonParse cand with
  | some parsed => validStructure parsed
  | none => false

section ClaimTheorems

/-- Truthiness of an optional coordinate, spelled out. -/
theorem numTruthy_iff (o : Option ℚ) :
    numTruthy o = true ↔ ∃ a, o = some a ∧ a ≠ 0 := by
  cases o with
  | none => simp [numTruthy]
  | some q =>
    simp only [numTruthy, Bool.not_eq_true', beq_eq_false_iff_ne, ne_eq]
    constructor
    · intro h; exact ⟨q, rfl, h⟩
    · rintro ⟨a, ha, hne⟩; cases ha; exact hne

/-- Claim C1 (amended): Grounded mode — the Maps location tool attached and
the schema constraint omitted — is chosen exactly when both coordinates are
present with a nonzero value (the selector uses JavaScript truthiness, so a
coordinate equal to 0 counts as absent); otherwise Structured mode is
chosen: the schema constraint is requested and no location tool is
attached.  The general search tool is attached in both modes. -/
theorem claim_C1_amended (p : TravelPreferences) :
    (GenTool.googleMaps ∈ (buildRequestConfig p).tools ↔
      ((∃ a, p.latitude = some a ∧ a ≠ 0) ∧ (∃ b, p.longitude = some b ∧ b ≠ 0))) ∧
    ((buildRequestConfig p).hasResponseSchema = true ↔
      ¬((∃ a, p.latitude = some a ∧ a ≠ 0) ∧ (∃ b, p.longitude = some b ∧ b ≠ 0))) ∧
    GenTool.googleSearch ∈ (buildRequestConfig p).tools := by
  have hiff : useMapsGroundingOf p = true ↔
      ((∃ a, p.latitude = some a ∧ a ≠ 0) ∧ (∃ b, p.longitude = some b ∧ b ≠ 0)) := by
    rw [useMapsGroundingOf, Bool.and_eq_true, numTruthy_iff, numTruthy_iff]
  by_cases h : useMapsGroundingOf p = true
  · refine ⟨?_, ?_, ?_⟩ <;>
      simp [buildRequestConfig, h, hiff.mp h, ← hiff]
  · have h' : useMapsGroundingOf p = false := by
      cases hu : useMapsGroundingOf p
      · rfl
      · exact absurd hu h
    refine ⟨?_, ?_, ?_⟩ <;>
      simp [buildRequestConfig, h', ← hiff, h']

/-- Concrete preferences whose latitude is present but zero. -/
def prefsZeroLat : TravelPreferences :=
  { destination := "Kyoto", duration := 3, interests := "food", budget := 500,
    currency := "USD", latitude := some 0, longitude := some 1 }

/-- Claim C1 counterexample: with latitude set to the finite number 0 and
longitude set to 1, the claim requires Grounded mode, but the code selects
Structured mode — the schema constraint is requested and no location tool
is attached — because the `latitude && longitude` check treats 0 as
falsy. -/
theorem claim_C1_counterexample :
    prefsZeroLat.latitude = some (0 : ℚ) ∧ prefsZeroLat.longitude = some (1 : ℚ) ∧
    GenTool.googleMaps ∉ (buildRequestConfig prefsZeroLat).tools ∧
    (buildRequestConfig prefsZeroLat).hasResponseSchema = true := by
  refine ⟨rfl, rfl, ?_, rfl⟩
  decide

/-- Claim C5: whenever the sliced candidate fails to parse, the extractor
returns no-match; no repair or alternative slice is attempted (the result
is exactly `null`). -/
theorem claim_C5 (input cand : List Char)
    (h1 : sliceCandidate input = some cand) (h2 : jsonParse cand = none) :
    extractJsonFromString input = none := by
  unfold extractJsonFromString
  rw [h1]
  by_cases hc : cand.isEmpty <;> simp [hc, h2]

/-- Claim C5 witness: on the input consisting of `{a}` the slice succeeds
with the candidate `{a}`, the candidate does not parse, and the extractor
returns no-match. -/
theorem claim_C5_witness :
    sliceCandidate "\x7ba\x7d".toList = some "\x7ba\x7d".toList ∧
    jsonParse "\x7ba\x7d".toList = none ∧
    extractJsonFromString "\x7ba\x7d".toList = none :=
  ⟨rfl, rfl, claim_C5 _ _ rfl rfl⟩

/-- Claim C9: a Model Client failure whose message contains the known
credential signature is rethrown with the distinct actionable
credential-selection message; every other Model Client failure is rethrown
wrapped in the generic localized message.  The model performs the single
call and no retry. -/
theorem claim_C9 (p : TravelPreferences) (msg : String) :
    generateItinerary p (.error msg) =
      (if strIncludes notFoundSignature.data msg.data then .error apiKeyErrorMsg
       else .error (genericErrorPrefix ++ msg)) := rfl

/-- Claim C6: on candidates whose `destination` member (when present) is a
string — the shape promised by the data model — the validator accepts
exactly when `destination` is present and non-empty and `itinerary` is
present and is an array; no other member is examined. -/
theorem claim_C6 (v : Json)
    (hdest : getProp v "destination" = none ∨
      ∃ s, getProp v "destination" = some (.str s)) :
    validStructure v = true ↔
      ((∃ s, getProp v "destination" = some (.str s) ∧ s ≠ "") ∧
       ∃ elems, getProp v "itinerary" = some (.arr elems)) := by
  constructor
  · intro h
    rw [validStructure, Bool.and_eq_true, Bool.and_eq_true] at h
    obtain ⟨⟨-, hdtruthy⟩, hitin⟩ := h
    constructor
    · rcases hdest with hnone | ⟨s, hs⟩
      · rw [hnone] at hdtruthy; exact absurd hdtruthy (by simp [jsTruthyOpt])
      · refine ⟨s, hs, ?_⟩
        rw [hs] at hdtruthy
        simpa [jsTruthyOpt, jsTruthy] using hdtruthy
    · cases hit : getProp v "itinerary" with
      | none => rw [hit] at hitin; exact absurd hitin (by simp [isJsArrayOpt])
      | some w =>
        cases w with
        | arr elems => exact ⟨elems, rfl⟩
        | _ => rw [hit] at hitin; exact absurd hitin (by simp [isJsArrayOpt])
  · rintro ⟨⟨s, hs, hne⟩, elems, helems⟩
    have hobj : jsTruthy v = true := by
      cases v <;> simp_all [getProp, jsTruthy]
    rw [validStructure, Bool.and_eq_true, Bool.and_eq_true, hs, helems]
    exact ⟨⟨hobj, by simpa [jsTruthyOpt, jsTruthy] using hne⟩, rfl⟩

/-- Claim C6 witness: a candidate carrying only a non-empty string
`destination` and an empty-array `itinerary` — every other field missing —
is accepted by the validator. -/
theorem claim_C6_witness :
    validStructure (Json.obj [("destination", .str "Kyoto"), ("itinerary", .arr [])]) = true ∧
    getProp (Json.obj [("destination", .str "Kyoto"), ("itinerary", .arr [])]) "notes" = none :=
  ⟨(claim_C6 (Json.obj [("destination", .str "Kyoto"), ("itinerary", .arr [])])
      (Or.inr ⟨"Kyoto", rfl⟩)).mpr
      ⟨⟨"Kyoto", rfl, by decide⟩, [], rfl⟩,
   rfl⟩

/-- Folding the citation accumulator from any starting accumulator just
prepends it. -/
theorem foldl_append_citations (chunks : List GroundingChunk) (acc : List Citation) :
    chunks.foldl (fun a c => a ++ chunkCitations c) acc =
      acc ++ chunks.foldl (fun a c => a ++ chunkCitations c) [] := by
  induction chunks generalizing acc with
  | nil => simp
  | cons c rest ih =>
    simp only [List.foldl_cons, List.nil_append]
    rw [ih (acc ++ chunkCitations c), ih (chunkCitations c), List.append_assoc]

/-- The citation loop processes one chunk after another, in source order. -/
theorem extractSourceUrls_cons (c : GroundingChunk) (rest : List GroundingChunk) :
    extractSourceUrls (c :: rest) = chunkCitations c ++ extractSourceUrls rest := by
  simp only [extractSourceUrls, List.foldl_cons, List.nil_append]
  exact foldl_append_citations rest (chunkCitations c)

/-- Claim C7 (amended): in source order, a web chunk emits one citation
from its link and label; a Maps chunk emits one citation for the place
followed by one per attached review snippet, whose label defaults to the
fixed placeholder `"Review Link"` when it is absent *or empty* (the code
uses a truthiness test, `jsOrStr`); a chunk of neither kind emits nothing;
no metadata yields the empty sequence; and a Maps chunk with two review
snippets yields exactly three citations in order (place, snippet 1,
snippet 2). -/
theorem claim_C7_amended :
    (∀ (w : WebChunk) (rest : List GroundingChunk),
      extractSourceUrls ({ web := some w, maps := none } :: rest) =
        { uri := w.uri, title := w.title } :: extractSourceUrls rest) ∧
    (∀ (m : MapsChunk) (snips : List ReviewSnippet) (rest : List GroundingChunk),
      m.placeAnswerSources = some { reviewSnippets := some snips } →
      extractSourceUrls ({ web := none, maps := some m } :: rest) =
        ({ uri := m.uri, title := m.title } ::
          snips.map (fun s => { uri := s.uri, title := some (jsOrStr s.title "Review Link") })) ++
          extractSourceUrls rest) ∧
    (∀ rest : List GroundingChunk,
      extractSourceUrls ({ web := none, maps := none } :: rest) = extractSourceUrls rest) ∧
    extractSourceUrls [] = [] ∧
    (∀ (uri0 : String) (title0 : Option String) (s1 s2 : ReviewSnippet),
      extractSourceUrls
          [{ web := none,
             maps := some { uri := uri0, title := title0,
                            placeAnswerSources :=
                              some { reviewSnippets := some [s1, s2] } } }] =
        [{ uri := uri0, title := title0 },
         { uri := s1.uri, title := some (jsOrStr s1.title "Review Link") },
         { uri := s2.uri, title := some (jsOrStr s2.title "Review Link") }]) := by
  refine ⟨?_, ?_, ?_, rfl, ?_⟩
  · intro w rest
    simp [extractSourceUrls_cons, chunkCitations]
  · intro m snips rest h
    simp [extractSourceUrls_cons, chunkCitations, h]
  · intro rest
    simp [extractSourceUrls_cons, chunkCitations]
  · intro uri0 title0 s1 s2
    simp [extractSourceUrls, chunkCitations]

/-- Claim C7 witness: instantiating the Maps case — a place with two review
snippets, one without a label and one labelled — yields exactly the three
citations in order. -/
theorem claim_C7_amended_witness :
    extractSourceUrls
        [{ web := none,
           maps := some { uri := "maps://p", title := some "Place",
                          placeAnswerSources :=
                            some { reviewSnippets :=
                                     some [{ uri := "rev://1", title := none },
                                           { uri := "rev://2", title := some "Nice" }] } } }] =
      [{ uri := "maps://p", title := some "Place" },
       { uri := "rev://1", title := some "Review Link" },
       { uri := "rev://2", title := some "Nice" }] := by
  have h := claim_C7_amended.2.1
    { uri := "maps://p", title := some "Place",
      placeAnswerSources :=
        some { reviewSnippets := some [{ uri := "rev://1", title := none },
                                       { uri := "rev://2", title := some "Nice" }] } }
    [{ uri := "rev://1", title := none }, { uri := "rev://2", title := some "Nice" }]
    [] rfl
  simpa [jsOrStr, extractSourceUrls] using h

/-- Claim C7 counterexample: a review snippet whose label is present but
empty is emitted with the placeholder label `"Review Link"`, not with its
given (empty) label — the default is applied beyond the absent case, so
the claim as stated (default only when absent) is false here. -/
theorem claim_C7_counterexample :
    extractSourceUrls
        [{ web := none,
           maps := some { uri := "maps://p", title := some "Place",
                          placeAnswerSources :=
                            some { reviewSnippets :=
                                     some [{ uri := "rev://1", title := some "" }] } } }] =
      [{ uri := "maps://p", title := some "Place" },
       { uri := "rev://1", title := some "Review Link" }] ∧
    (some "" : Option String) ≠ none ∧ ("Review Link" : String) ≠ "" := by
  refine ⟨by decide, by decide, by decide⟩

/-- Both fallback-producing conditions — an extraction miss, or any
Grounded-mode parse/validation failure — make `processResponse` resolve
with the fallback itinerary and no citations. -/
theorem processResponse_eq_fallback (p : TravelPreferences) (umg : Bool)
    (resp : GenerateContentResponse)
    (h : extractJsonFromString (jsTrim resp.text.data) = none ∨
      (umg = true ∧ ∃ cand, extractJsonFromString (jsTrim resp.text.data) = some cand ∧
        parsedAndValid cand = false)) :
    processResponse p umg resp =
      .ok { itineraryData := fallbackItinerary p (String.mk (jsTrim resp.text.data)),
            sourceUrls := [] } := by
  rcases h with hnone | ⟨humg, cand, hsome, hpv⟩
  · simp only [processResponse, hnone]
  · subst humg
    cases hJ : jsonParse cand with
    | none => simp only [processResponse, hsome, if_true, hJ]
    | some v =>
      have hv : validStructure v = false := by
        simpa [parsedAndValid, hJ] using hpv
      simp only [processResponse, hsome, if_true, hJ, hv, Bool.false_eq_true,
        if_false]

/-- A successful body resolves the pipeline with the same result (the catch
block of lines 240-249 is not reached). -/
theorem generateItinerary_ok_of_body (p : TravelPreferences)
    (resp : GenerateContentResponse) (r : ItineraryResult)
    (h : processResponse p (useMapsGroundingOf p) resp = .ok r) :
    generateItinerary p (.ok resp) = .ok r := by
  simp only [generateItinerary, h]

/-- A thrown body error reaches the catch block of lines 240-249 and is
transformed there. -/
theorem generateItinerary_error_of_body (p : TravelPreferences)
    (resp : GenerateContentResponse) (m : String)
    (h : processResponse p (useMapsGroundingOf p) resp = .error m) :
    generateItinerary p (.ok resp) =
      (if strIncludes notFoundSignature.data m.data then .error apiKeyErrorMsg
       else .error (genericErrorPrefix ++ m)) := by
  simp only [generateItinerary, h]

/-- Claim C2: whenever extraction yields no-match, or parsing/validation of
the extracted candidate fails in Grounded mode, the pipeline resolves
(without throwing) with a fallback itinerary whose destination and duration
are copied from the preferences, whose overview is the raw reply text
(`rawResponseText`, the reply as read by the pipeline on line 170), whose
itinerary and packing lists are empty, whose notes is the fixed explanatory
message, and whose budget summary is synthesized from budget and currency —
and the accompanying `sourceUrls` is empty even when grounding metadata was
present on the response. -/
theorem claim_C2 (p : TravelPreferences) (resp : GenerateContentResponse)
    (h : extractJsonFromString (jsTrim resp.text.data) = none ∨
      (useMapsGroundingOf p = true ∧
        ∃ cand, extractJsonFromString (jsTrim resp.text.data) = some cand ∧
          parsedAndValid cand = false)) :
    generateItinerary p (.ok resp) =
      .ok { itineraryData := Json.obj
              [("destination", .str p.destination),
               ("duration", .num (p.duration : ℚ)),
               ("overview", .str (String.mk (jsTrim resp.text.data))),
               ("itinerary", .arr []),
               ("packingSuggestions", .arr []),
               ("notes", .str fallbackNotes),
               ("budgetSummary",
                .str ("Anggaran: " ++ Nat.repr p.budget ++ " " ++ p.currency ++ "."))],
            sourceUrls := [] } :=
  generateItinerary_ok_of_body p resp _
    (processResponse_eq_fallback p (useMapsGroundingOf p) resp h)

/-- Sample preferences used by concrete pipeline runs (Structured mode:
no coordinates). -/
def samplePrefs : TravelPreferences :=
  { destination := "Kyoto", duration := 3, interests := "food", budget := 500,
    currency := "USD", latitude := none, longitude := none }

/-- A reply with no structural delimiter at all, accompanied by grounding
metadata containing one web chunk. -/
def sampleRespPlain : GenerateContentResponse :=
  { text := "hello there",
    candidates :=
      [⟨some ⟨some [⟨some ⟨"https://x", some "X"⟩, none⟩]⟩⟩] }

/-- Claim C2 witness: a concrete extraction miss — prose without delimiters
— resolves with the fallback itinerary, the overview equal to the reply
text, and empty `sourceUrls` although a web grounding chunk was present. -/
theorem claim_C2_witness :
    generateItinerary samplePrefs (.ok sampleRespPlain) =
      .ok { itineraryData := Json.obj
              [("destination", .str "Kyoto"),
               ("duration", .num (3 : ℚ)),
               ("overview", .str "hello there"),
               ("itinerary", .arr []),
               ("packingSuggestions", .arr []),
               ("notes", .str fallbackNotes),
               ("budgetSummary", .str "Anggaran: 500 USD.")],
            sourceUrls := [] } ∧
    sourceUrlsOf sampleRespPlain ≠ [] := by
  constructor
  · exact claim_C2 samplePrefs sampleRespPlain (Or.inl rfl)
  · intro hcontra
    simp [sampleRespPlain, sourceUrlsOf, extractSourceUrls, chunkCitations] at hcontra

/-- Claim C3: in Structured mode, a structural mismatch of the extracted
candidate (parse failure or a parsed value without a truthy destination or
an array itinerary) is propagated to the caller as a thrown error — the
fixed mismatch message wrapped by the generic catch prefix — and is never
recovered via the fallback builder. -/
theorem claim_C3 (p : TravelPreferences) (resp : GenerateContentResponse)
    (cand : List Char)
    (h1 : useMapsGroundingOf p = false)
    (h2 : extractJsonFromString (jsTrim resp.text.data) = some cand)
    (h3 : parsedAndValid cand = false) :
    generateItinerary p (.ok resp) = .error (genericErrorPrefix ++ invalidJsonMsg) := by
  have hbody : processResponse p (useMapsGroundingOf p) resp = .error invalidJsonMsg := by
    cases hJ : jsonParse cand with
    | none => simp only [processResponse, h2, h1, Bool.false_eq_true, if_false, hJ]
    | some v =>
      have hv : validStructure v = false := by
        simpa [parsedAndValid, hJ] using h3
      simp only [processResponse, h2, h1, Bool.false_eq_true, if_false, hJ, hv]
  rw [generateItinerary_error_of_body p resp invalidJsonMsg hbody]
  norm_num [show strIncludes notFoundSignature.data invalidJsonMsg.data = false from rfl]

/-- A structured-mode reply that is valid JSON but lacks the required
members. -/
def sampleRespBad : GenerateContentResponse :=
  { text := "\x7b\"a\":1\x7d", candidates := [] }

/-- Claim C3 witness: a concrete Structured-mode run whose extracted
candidate parses but fails validation throws the wrapped mismatch error. -/
theorem claim_C3_witness :
    generateItinerary samplePrefs (.ok sampleRespBad) =
      .error (genericErrorPrefix ++ invalidJsonMsg) :=
  claim_C3 samplePrefs sampleRespBad "\x7b\"a\":1\x7d".toList rfl rfl rfl

/-- The fallback itinerary always carries an (empty) array in its
`itinerary` member. -/
theorem fallback_itinerary_isArray (p : TravelPreferences) (raw : String) :
    isJsArrayOpt (getProp (fallbackItinerary p raw) "itinerary") = true := rfl

/-- Every successful `processResponse` outcome carries an array-valued
`itinerary` member: the fallback paths return an empty array and the
validated paths checked `Array.isArray` before returning. -/
theorem processResponse_ok_itinerary (p : TravelPreferences) (umg : Bool)
    (resp : GenerateContentResponse) (r : ItineraryResult)
    (h : processResponse p umg resp = .ok r) :
    isJsArrayOpt (getProp r.itineraryData "itinerary") = true := by
  cases hE : extractJsonFromString (jsTrim resp.text.data) with
  | none =>
    simp only [processResponse, hE, Except.ok.injEq] at h
    rw [← h]
    exact fallback_itinerary_isArray p _
  | some cand =>
    cases hJ : jsonParse cand with
    | none =>
      cases umg with
      | true =>
        simp only [processResponse, hE, if_true, hJ, Except.ok.injEq] at h
        rw [← h]
        exact fallback_itinerary_isArray p _
      | false =>
        simp only [processResponse, hE, Bool.false_eq_true, if_false, hJ] at h
        exact Except.noConfusion h
    | some v =>
      by_cases hv : validStructure v = true
      · have hitin : isJsArrayOpt (getProp v "itinerary") = true := by
          rw [validStructure, Bool.and_eq_true, Bool.and_eq_true] at hv
          exact hv.2
        cases umg with
        | true =>
          simp only [processResponse, hE, if_true, hJ, hv, Except.ok.injEq] at h
          rw [← h]
          exact hitin
        | false =>
          simp only [processResponse, hE, Bool.false_eq_true, if_false, hJ, hv,
            if_true, Except.ok.injEq] at h
          rw [← h]
          exact hitin
      · have hv' : validStructure v = false := by
          cases hval : validStructure v
          · rfl
          · exact absurd hval hv
        cases umg with
        | true =>
          simp only [processResponse, hE, if_true, hJ, hv', Bool.false_eq_true,
            if_false, Except.ok.injEq] at h
          rw [← h]
          exact fallback_itinerary_isArray p _
        | false =>
          simp only [processResponse, hE, Bool.false_eq_true, if_false, hJ, hv'] at h
          exact Except.noConfusion h

/-- Claim C10: whenever the pipeline resolves successfully, the returned
result's `itineraryData` carries an `itinerary` member that is an array
(sequence): empty on every fallback path, and checked by `Array.isArray`
on every validated path. -/
theorem claim_C10 (p : TravelPreferences)
    (call : Except String GenerateContentResponse) (r : ItineraryResult)
    (h : generateItinerary p call = .ok r) :
    isJsArrayOpt (getProp r.itineraryData "itinerary") = true := by
  cases call with
  | error e =>
    simp only [generateItinerary] at h
    split at h <;> exact Except.noConfusion h
  | ok resp =>
    cases hb : processResponse p (useMapsGroundingOf p) resp with
    | ok r' =>
      have := generateItinerary_ok_of_body p resp r' hb
      rw [this, Except.ok.injEq] at h
      rw [← h]
      exact processResponse_ok_itinerary p (useMapsGroundingOf p) resp r' hb
    | error m =>
      rw [generateItinerary_error_of_body p resp m hb] at h
      split at h <;> exact Except.noConfusion h

/-- A structured-mode reply that is exactly a schema-valid itinerary
object. -/
def sampleRespGood : GenerateContentResponse :=
  { text := "\x7b\"destination\":\"Kyoto\",\"itinerary\":[]\x7d", candidates := [] }

/-- The result of the concrete successful run used as the C10 witness. -/
def sampleGoodResult : ItineraryResult :=
  { itineraryData := Json.obj [("destination", .str "Kyoto"), ("itinerary", .arr [])],
    sourceUrls := [] }

/-- Claim C10 witness: a concrete successful run resolves with a result
whose `itinerary` member is an array. -/
theorem claim_C10_witness :
    generateItinerary samplePrefs (.ok sampleRespGood) = .ok sampleGoodResult ∧
    isJsArrayOpt (getProp sampleGoodResult.itineraryData "itinerary") = true :=
  ⟨by rfl, claim_C10 samplePrefs (.ok sampleRespGood) sampleGoodResult (by rfl)⟩

/-! Machinery for the idempotence claim: the output of the fence-removal
pass never contains three consecutive backticks, removal is the identity on
such strings, and triple-freeness is inherited by the slices the extractor
takes. -/

/-- Fence removal cannot create a leading backtick. -/
theorem headIsBtick_removeFencesF (f : Nat) (cs : List Char)
    (h : headIsBtick cs = false) : headIsBtick (removeFencesF f cs) = false := by
  cases f with
  | zero => rfl
  | succ f' =>
    cases cs with
    | nil => rfl
    | cons a rest =>
      have ha : (a == btick) = false := by simpa [headIsBtick] using h
      simp [removeFencesF, ha, headIsBtick]

/-- Fence removal cannot create two leading backticks. -/
theorem startsTwoBticks_removeFencesF (f : Nat) (cs : List Char)
    (h : startsTwoBticks cs = false) :
    startsTwoBticks (removeFencesF f cs) = false := by
  cases f with
  | zero => rfl
  | succ f' =>
    cases cs with
    | nil => rfl
    | cons b rest =>
      rcases hb : (b == btick) with _ | _
      · simp [removeFencesF, hb, startsTwoBticks]
      · have hrest : headIsBtick rest = false := by
          simpa [startsTwoBticks, hb] using h
        have hnotrip : (b == btick && startsTwoBticks rest) = false := by
          cases rest with
          | nil => simp [startsTwoBticks]
          | cons c r2 =>
            have hc : (c == btick) = false := by simpa [headIsBtick] using hrest
            simp [startsTwoBticks, hc]
        simp only [removeFencesF, hnotrip, Bool.false_eq_true, if_false]
        simp only [startsTwoBticks, hb, Bool.true_and]
        exact headIsBtick_removeFencesF f' rest hrest

/-- The output of the fence-removal pass never contains three consecutive
backticks: a global replace never rescans its own output, but every
leftover backtick run is shorter than three. -/
theorem hasTriple_removeFencesF (f : Nat) :
    ∀ cs : List Char, hasTriple (removeFencesF f cs) = false := by
  induction f with
  | zero => intro cs; rfl
  | succ f' ih =>
    intro cs
    cases cs with
    | nil => rfl
    | cons a rest =>
      by_cases htrip : (a == btick && startsTwoBticks rest) = true
      · simp only [removeFencesF, htrip, if_true]
        exact ih _
      · have htrip' : (a == btick && startsTwoBticks rest) = false :=
          Bool.not_eq_true _ ▸ Bool.of_not_eq_true htrip
        simp only [removeFencesF, htrip', Bool.false_eq_true, if_false]
        simp only [hasTriple, Bool.or_eq_false_iff]
        refine ⟨?_, ih rest⟩
        rcases ha : (a == btick) with _ | _
        · simp
        · have hst : startsTwoBticks rest = false := by
            simpa [ha] using htrip'
          simp only [ha, Bool.true_and]
          exact startsTwoBticks_removeFencesF f' rest hst

/-- The fence-removal output is triple-free. -/
theorem hasTriple_removeFences (cs : List Char) :
    hasTriple (removeFences cs) = false :=
  hasTriple_removeFencesF _ cs

/-- A triple-free list stays triple-free after dropping its head. -/
theorem hasTriple_tail (a : Char) (rest : List Char)
    (h : hasTriple (a :: rest) = false) : hasTriple rest = false := by
  simp only [hasTriple, Bool.or_eq_false_iff] at h
  exact h.2

/-- Dropping preserves triple-freeness. -/
theorem hasTriple_drop (n : Nat) (l : List Char) (h : hasTriple l = false) :
    hasTriple (l.drop n) = false := by
  induction n generalizing l with
  | zero => simpa using h
  | succ n ih =>
    cases l with
    | nil => rfl
    | cons a rest => exact ih rest (hasTriple_tail a rest h)

/-- Taking preserves the absence of a leading backtick. -/
theorem headIsBtick_take (n : Nat) (l : List Char) (h : headIsBtick l = false) :
    headIsBtick (l.take n) = false := by
  cases l with
  | nil => simp [headIsBtick]
  | cons a rest =>
    cases n with
    | zero => rfl
    | succ m => simpa [headIsBtick] using h

/-- Taking preserves the absence of two leading backticks. -/
theorem startsTwoBticks_take (n : Nat) (l : List Char)
    (h : startsTwoBticks l = false) : startsTwoBticks (l.take n) = false := by
  cases l with
  | nil => simp [startsTwoBticks]
  | cons a rest =>
    cases n with
    | zero => rfl
    | succ m =>
      rcases ha : (a == btick) with _ | _
      · simp [startsTwoBticks, ha]
      · have hrest : headIsBtick rest = false := by
          simpa [startsTwoBticks, ha] using h
        simp only [List.take_succ_cons, startsTwoBticks, ha, Bool.true_and]
        exact headIsBtick_take m rest hrest

/-- Taking preserves triple-freeness. -/
theorem hasTriple_take (n : Nat) (l : List Char) (h : hasTriple l = false) :
    hasTriple (l.take n) = false := by
  induction l generalizing n with
  | nil => cases n <;> rfl
  | cons a rest ih =>
    cases n with
    | zero => rfl
    | succ m =>
      simp only [hasTriple, Bool.or_eq_false_iff] at h
      simp only [List.take_succ_cons, hasTriple, Bool.or_eq_false_iff]
      refine ⟨?_, ih m h.2⟩
      rcases ha : (a == btick) with _ | _
      · simp
      · have hst : startsTwoBticks rest = false := by
          simpa [ha] using h.1
        simp only [ha, Bool.true_and]
        exact startsTwoBticks_take m rest hst

/-- `dropWhile` is a `drop`. -/
theorem dropWhile_eq_drop (p : Char → Bool) (l : List Char) :
    ∃ k, l.dropWhile p = l.drop k := by
  induction l with
  | nil => exact ⟨0, rfl⟩
  | cons a rest ih =>
    by_cases h : p a = true
    · obtain ⟨k, hk⟩ := ih
      exact ⟨k + 1, by simp [List.dropWhile_cons, h, hk]⟩
    · exact ⟨0, by simp [List.dropWhile_cons, h]⟩

/-- Trimming preserves triple-freeness (a trimmed string is a contiguous
slice of the original). -/
theorem hasTriple_jsTrim (l : List Char) (h : hasTriple l = false) :
    hasTriple (jsTrim l) = false := by
  obtain ⟨k1, hk1⟩ := dropWhile_eq_drop isJsSpace l
  have h1 : hasTriple (l.dropWhile isJsSpace) = false := by
    rw [hk1]; exact hasTriple_drop k1 l h
  set m := l.dropWhile isJsSpace with hm
  obtain ⟨k2, hk2⟩ := dropWhile_eq_drop isJsSpace m.reverse
  have : jsTrim l = m.take (m.reverse.length - k2) := by
    rw [jsTrim, ← hm, hk2, List.reverse_drop, List.reverse_reverse]
  rw [this]
  exact hasTriple_take _ m h1

/-- On a triple-free input with enough fuel, fence removal is the
identity. -/
theorem removeFencesF_eq_self (f : Nat) :
    ∀ cs : List Char, hasTriple cs = false → cs.length < f →
      removeFencesF f cs = cs := by
  induction f with
  | zero => intro cs _ hl; exact absurd hl (by omega)
  | succ f' ih =>
    intro cs hT hl
    cases cs with
    | nil => rfl
    | cons a rest =>
      simp only [hasTriple, Bool.or_eq_false_iff] at hT
      simp only [removeFencesF, hT.1, Bool.false_eq_true, if_false]
      rw [ih rest hT.2 (by simpa using Nat.lt_of_succ_lt_succ hl)]

/-- Fence removal is the identity on triple-free strings. -/
theorem removeFences_eq_self (cs : List Char) (h : hasTriple cs = false) :
    removeFences cs = cs :=
  removeFencesF_eq_self _ cs h (Nat.lt_succ_self _)

/-- `dropWhile` is the identity when the head does not satisfy the
predicate. -/
theorem dropWhile_eq_self_of_head (p : Char → Bool) (l : List Char) (c : Char)
    (hh : l.head? = some c) (hp : p c = false) : l.dropWhile p = l := by
  cases l with
  | nil => cases hh
  | cons a rest =>
    have : a = c := by simpa using hh
    subst this
    simp [List.dropWhile_cons, hp]

/-- Trimming is the identity when neither end is whitespace. -/
theorem jsTrim_eq_self (l : List Char) (a b : Char)
    (hh : l.head? = some a) (ha : isJsSpace a = false)
    (hl : l.getLast? = some b) (hb : isJsSpace b = false) : jsTrim l = l := by
  rw [jsTrim, dropWhile_eq_self_of_head isJsSpace l a hh ha,
    dropWhile_eq_self_of_head isJsSpace l.reverse b (by rw [List.head?_reverse]; exact hl) hb,
    List.reverse_reverse]

/-- `idxOf?` returns an index holding the sought character. -/
theorem idxOf?_getElem (c : Char) (l : List Char) (i : Nat)
    (h : idxOf? c l = some i) : l[i]? = some c := by
  induction l generalizing i with
  | nil => cases h
  | cons a rest ih =>
    rcases ha : (a == c) with _ | _
    · simp only [idxOf?, ha, Bool.false_eq_true, if_false, Option.map_eq_some'] at h
      obtain ⟨i', hi', rfl⟩ := h
      simpa using ih i' hi'
    · simp only [idxOf?, ha, if_true, Option.some.injEq] at h
      subst h
      simpa using (beq_iff_eq.mp ha)

/-- `lastIdxOf?` returns an index holding the sought character, within
bounds. -/
theorem lastIdxOf?_getElem (c : Char) (l : List Char) (j : Nat)
    (h : lastIdxOf? c l = some j) : l[j]? = some c ∧ j < l.length := by
  induction l generalizing j with
  | nil => cases h
  | cons a rest ih =>
    simp only [lastIdxOf?] at h
    cases hr : lastIdxOf? c rest with
    | some j' =>
      rw [hr] at h
      obtain rfl : j' + 1 = j := by simpa using h
      obtain ⟨hv, hlt⟩ := ih j' hr
      exact ⟨by simpa using hv, by simpa using Nat.succ_lt_succ hlt⟩
    | none =>
      rw [hr] at h
      rcases ha : (a == c) with _ | _
      · rw [ha] at h; cases h
      · rw [ha] at h
        obtain rfl : 0 = j := by simpa using h
        exact ⟨by simpa using (beq_iff_eq.mp ha), by simp⟩

/-- Unfolding equation of `lastIdxOf?` on a cons cell. -/
theorem lastIdxOf?_cons (c a : Char) (l : List Char) :
    lastIdxOf? c (a :: l) =
      (match lastIdxOf? c l with
       | some j => some (j + 1)
       | none => if a == c then some 0 else none) := rfl

/-- When the last element is `c`, `lastIdxOf?` returns the final index. -/
theorem lastIdxOf?_getLast (c : Char) (l : List Char)
    (h : l.getLast? = some c) : lastIdxOf? c l = some (l.length - 1) := by
  induction l with
  | nil => cases h
  | cons a rest ih =>
    cases rest with
    | nil =>
      have : a = c := by simpa using h
      subst this
      simp [lastIdxOf?]
    | cons b rest' =>
      have hlast : (b :: rest').getLast? = some c := by
        rwa [List.getLast?_cons_cons] at h
      rw [lastIdxOf?_cons, ih hlast]
      show some ((b :: rest').length - 1 + 1) = some ((a :: b :: rest').length - 1)
      simp only [List.length_cons]
      refine congrArg some ?_
      omega

/-- The head of a dropped list is the element at the drop index. -/
theorem head?_drop (l : List Char) (n : Nat) : (l.drop n).head? = l[n]? := by
  rw [List.head?_eq_getElem?, List.getElem?_drop, Nat.add_zero]

/-- The head of a nonempty take is the head of the list. -/
theorem head?_take (l : List Char) (n : Nat) (hn : 1 ≤ n) :
    (l.take n).head? = l.head? := by
  cases l with
  | nil => simp
  | cons a rest =>
    cases n with
    | zero => omega
    | succ m => simp

/-- The last element of a nonempty within-bounds take. -/
theorem getLast?_take (l : List Char) (n : Nat) (h1 : 1 ≤ n)
    (h2 : n ≤ l.length) : (l.take n).getLast? = l[n - 1]? := by
  induction l generalizing n with
  | nil => simp only [List.length_nil] at h2; omega
  | cons a rest ih =>
    cases n with
    | zero => omega
    | succ m =>
      cases m with
      | zero => simp
      | succ m' =>
        have hlen : m' + 1 ≤ rest.length := by
          simp only [List.length_cons] at h2; omega
        have hrest : (rest.take (m' + 1)).getLast? = rest[m' + 1 - 1]? :=
          ih (m' + 1) (by omega) hlen
        have hne : rest.take (m' + 1) ≠ [] := by
          apply List.ne_nil_of_length_pos
          rw [List.length_take]
          omega
        cases hrt : rest.take (m' + 1) with
        | nil => exact absurd hrt hne
        | cons x xs =>
          simp only [List.take_succ_cons]
          rw [hrt, List.getLast?_cons_cons, ← hrt, hrest]
          simp

/-- Inversion of a successful extraction: the slice succeeded with the same
string, the candidate parses, and it is non-empty. -/
theorem extract_inversion (input s : List Char)
    (h : extractJsonFromString input = some s) :
    sliceCandidate input = some s ∧ (jsonParse s).isSome = true ∧
      s.isEmpty = false := by
  unfold extractJsonFromString at h
  cases hs : sliceCandidate input with
  | none => rw [hs] at h; cases h
  | some cand =>
    rw [hs] at h
    dsimp only at h
    by_cases he : cand.isEmpty = true
    · rw [if_pos he] at h; cases h
    · rw [if_neg he] at h
      by_cases hp : (jsonParse cand).isSome = true
      · rw [if_pos hp] at h
        obtain rfl : cand = s := by simpa using h
        exact ⟨rfl, hp, Bool.not_eq_true _ ▸ Bool.of_not_eq_true he⟩
      · rw [if_neg hp] at h; cases h

/-- Inversion of a successful slice: there are positions `i ≤ j` in the
cleaned text holding a matching delimiter pair of the first-seen kind, and
the candidate is the inclusive slice between them. -/
theorem sliceCandidate_inversion (input cand : List Char)
    (h : sliceCandidate input = some cand) :
    ∃ (i j : Nat) (o c : Char),
      ((o, c) = ('{', '}') ∨ (o, c) = ('[', ']')) ∧
      (jsTrim (removeFences input))[i]? = some o ∧
      (jsTrim (removeFences input))[j]? = some c ∧
      i ≤ j ∧ j < (jsTrim (removeFences input)).length ∧
      cand = ((jsTrim (removeFences input)).drop i).take (j + 1 - i) := by
  set cleaned := jsTrim (removeFences input) with hcl
  simp only [sliceCandidate, ← hcl] at h
  -- resolve the first-delimiter choice
  have main : ∀ (i : Nat) (o c : Char),
      ((o, c) = ('{', '}') ∨ (o, c) = ('[', ']')) → cleaned[i]? = some o →
      (match (if cleaned[i]? = some '{' then lastIdxOf? '}' cleaned
              else if cleaned[i]? = some '[' then lastIdxOf? ']' cleaned
              else none) with
        | none => none
        | some j => if j < i then none else some ((cleaned.drop i).take (j + 1 - i)))
        = some cand →
      ∃ (i' j : Nat) (o' c' : Char),
        ((o', c') = ('{', '}') ∨ (o', c') = ('[', ']')) ∧
        cleaned[i']? = some o' ∧ cleaned[j]? = some c' ∧
        i' ≤ j ∧ j < cleaned.length ∧
        cand = ((cleaned.drop i').take (j + 1 - i')) := by
    intro i o c hpair hio hmatch
    rcases hpair with hp | hp <;> rw [Prod.mk.injEq] at hp <;>
      obtain ⟨rfl, rfl⟩ := hp
    · rw [if_pos hio] at hmatch
      cases hL : lastIdxOf? '}' cleaned with
      | none => rw [hL] at hmatch; cases hmatch
      | some j =>
        rw [hL] at hmatch
        dsimp only at hmatch
        obtain ⟨hjv, hjlt⟩ := lastIdxOf?_getElem '}' cleaned j hL
        by_cases hord : j < i
        · rw [if_pos hord] at hmatch; cases hmatch
        · rw [if_neg hord] at hmatch
          obtain rfl : (cleaned.drop i).take (j + 1 - i) = cand := by simpa using hmatch
          exact ⟨i, j, '{', '}', Or.inl rfl, hio, hjv, by omega, hjlt, rfl⟩
    · have hne : cleaned[i]? ≠ some '{' := by rw [hio]; simp
      rw [if_neg hne, if_pos hio] at hmatch
      cases hL : lastIdxOf? ']' cleaned with
      | none => rw [hL] at hmatch; cases hmatch
      | some j =>
        rw [hL] at hmatch
        dsimp only at hmatch
        obtain ⟨hjv, hjlt⟩ := lastIdxOf?_getElem ']' cleaned j hL
        by_cases hord : j < i
        · rw [if_pos hord] at hmatch; cases hmatch
        · rw [if_neg hord] at hmatch
          obtain rfl : (cleaned.drop i).take (j + 1 - i) = cand := by simpa using hmatch
          exact ⟨i, j, '[', ']', Or.inr rfl, hio, hjv, by omega, hjlt, rfl⟩
  cases hB : idxOf? '{' cleaned with
  | none =>
    cases hK : idxOf? '[' cleaned with
    | none => rw [hB, hK] at h; cases h
    | some k =>
      rw [hB, hK] at h
      dsimp only at h
      exact main k '[' ']' (Or.inr rfl) (idxOf?_getElem '[' cleaned k hK) h
  | some b =>
    cases hK : idxOf? '[' cleaned with
    | none =>
      rw [hB, hK] at h
      dsimp only at h
      exact main b '{' '}' (Or.inl rfl) (idxOf?_getElem '{' cleaned b hB) h
    | some k =>
      rw [hB, hK] at h
      dsimp only at h
      by_cases hbk : b < k
      · rw [if_pos hbk] at h
        dsimp only at h
        exact main b '{' '}' (Or.inl rfl) (idxOf?_getElem '{' cleaned b hB) h
      · rw [if_neg hbk] at h
        dsimp only at h
        exact main k '[' ']' (Or.inr rfl) (idxOf?_getElem '[' cleaned k hK) h

/-- Re-slicing a triple-free string that starts with an opening delimiter
and ends with the matching closing delimiter returns it whole. -/
theorem sliceCandidate_of_delims (s : List Char) (o c : Char)
    (hpair : (o, c) = ('{', '}') ∨ (o, c) = ('[', ']'))
    (hh : s.head? = some o) (hl : s.getLast? = some c)
    (hT : hasTriple s = false) :
    sliceCandidate s = some s := by
  have hne : s ≠ [] := by intro hcontra; rw [hcontra] at hh; cases hh
  have hpos : 0 < s.length := List.length_pos.mpr hne
  have harith : s.length - 1 + 1 - 0 = s.length := by omega
  rcases hpair with hp | hp <;> rw [Prod.mk.injEq] at hp <;> obtain ⟨rfl, rfl⟩ := hp
  · have hclean : jsTrim (removeFences s) = s := by
      rw [removeFences_eq_self s hT]
      exact jsTrim_eq_self s '{' '}' hh (by decide) hl (by decide)
    obtain ⟨t, rfl⟩ : ∃ t, s = '{' :: t := by
      cases s with
      | nil => cases hh
      | cons a t => exact ⟨t, by simpa using congrArg (List.cons · t) (by simpa using hh : a = '{')⟩
    simp only [sliceCandidate, hclean]
    have h1 : idxOf? '{' ('{' :: t) = some 0 := by simp [idxOf?]
    rw [h1]
    have hL : lastIdxOf? '}' ('{' :: t) = some (('{' :: t).length - 1) :=
      lastIdxOf?_getLast '}' _ hl
    have hfin : (match (if ('{' :: t)[0]? = some '{' then lastIdxOf? '}' ('{' :: t)
                else if ('{' :: t)[0]? = some '[' then lastIdxOf? ']' ('{' :: t)
                else none) with
        | none => none
        | some j => if j < 0 then none
            else some ((('{' :: t).drop 0).take (j + 1 - 0)))
        = some ('{' :: t) := by
      rw [if_pos (by simp), hL]
      dsimp only
      rw [if_neg (by omega)]
      rw [List.drop_zero, harith, List.take_length]
    cases hK : idxOf? '[' ('{' :: t) with
    | none => exact hfin
    | some k =>
      dsimp only
      have hk1 : 0 < k := by
        simp only [idxOf?, show ('{' == '[') = false by decide, Bool.false_eq_true,
          if_false, Option.map_eq_some'] at hK
        obtain ⟨k', -, rfl⟩ := hK
        omega
      rw [if_pos hk1]
      exact hfin
  · have hclean : jsTrim (removeFences s) = s := by
      rw [removeFences_eq_self s hT]
      exact jsTrim_eq_self s '[' ']' hh (by decide) hl (by decide)
    obtain ⟨t, rfl⟩ : ∃ t, s = '[' :: t := by
      cases s with
      | nil => cases hh
      | cons a t => exact ⟨t, by simpa using congrArg (List.cons · t) (by simpa using hh : a = '[')⟩
    simp only [sliceCandidate, hclean]
    have h1 : idxOf? '[' ('[' :: t) = some 0 := by simp [idxOf?]
    rw [h1]
    have hL : lastIdxOf? ']' ('[' :: t) = some (('[' :: t).length - 1) :=
      lastIdxOf?_getLast ']' _ hl
    have hfin : (match (if ('[' :: t)[0]? = some '{' then lastIdxOf? '}' ('[' :: t)
                else if ('[' :: t)[0]? = some '[' then lastIdxOf? ']' ('[' :: t)
                else none) with
        | none => none
        | some j => if j < 0 then none
            else some ((('[' :: t).drop 0).take (j + 1 - 0)))
        = some ('[' :: t) := by
      rw [if_neg (by simp), if_pos (by simp), hL]
      dsimp only
      rw [if_neg (by omega)]
      rw [List.drop_zero, harith, List.take_length]
    cases hB : idxOf? '{' ('[' :: t) with
    | none => exact hfin
    | some b =>
      dsimp only
      have hb1 : 0 < b := by
        simp only [idxOf?, show ('[' == '{') = false by decide, Bool.false_eq_true,
          if_false, Option.map_eq_some'] at hB
        obtain ⟨b', -, rfl⟩ := hB
        omega
      rw [if_neg (by omega)]
      exact hfin

/-- Claim C8: the extractor is idempotent on its image — re-running it on
any of its own successful outputs returns that output unchanged.  The
output is a triple-free slice from an opening delimiter to the matching
closing delimiter, so fence removal, trimming and re-slicing all leave it
whole, and it still parses. -/
theorem claim_C8 (input s : List Char)
    (h : extractJsonFromString input = some s) :
    extractJsonFromString s = some s := by
  obtain ⟨hslice, hparse, hnempty⟩ := extract_inversion input s h
  obtain ⟨i, j, o, c, hpair, hio, hjc, hij, hjlt, hcand⟩ :=
    sliceCandidate_inversion input s hslice
  have hTc : hasTriple (jsTrim (removeFences input)) = false :=
    hasTriple_jsTrim _ (hasTriple_removeFences input)
  have hTs : hasTriple s = false := by
    rw [hcand]
    exact hasTriple_take _ _ (hasTriple_drop _ _ hTc)
  have hhead : s.head? = some o := by
    rw [hcand, head?_take _ _ (by omega), head?_drop]
    exact hio
  have hlast : s.getLast? = some c := by
    rw [hcand, getLast?_take _ _ (by omega)
      (by rw [List.length_drop]; omega)]
    rw [List.getElem?_drop, show i + (j + 1 - i - 1) = j by omega]
    exact hjc
  have hs2 : sliceCandidate s = some s :=
    sliceCandidate_of_delims s o c hpair hhead hlast hTs
  unfold extractJsonFromString
  rw [hs2]
  dsimp only
  rw [if_neg (by rw [hnempty]; exact Bool.false_ne_true), if_pos hparse]

/-- Claim C8 witness: a concrete successful extraction, re-extracted via
the idempotence theorem. -/
theorem claim_C8_witness :
    extractJsonFromString "x \x7b\"a\": [1]\x7d y".toList = some "\x7b\"a\": [1]\x7d".toList ∧
    extractJsonFromString "\x7b\"a\": [1]\x7d".toList = some "\x7b\"a\": [1]\x7d".toList :=
  ⟨rfl, claim_C8 "x \x7b\"a\": [1]\x7d y".toList "\x7b\"a\": [1]\x7d".toList rfl⟩

/-- Claim C4 counterexample: first, reply text consisting of prose, then a
fenced `json`-tagged block holding a parseable object, then more prose — but
with a stray brace in the leading prose.  The claim requires the extractor
to return the enclosed structure regardless of the prose; the code instead
slices from the stray brace and fails to parse, returning no-match.
Second, the enclosed document itself must be free of triple-backtick runs:
three consecutive backticks inside a JSON string of the document are deleted
by the fence-removal pass, so the extractor returns a mutilated document
instead of the enclosed one. -/
theorem claim_C4_counterexample :
    (extractJsonFromString
        "pre \x7b oops\n\x60\x60\x60json\n\x7b\"a\":1\x7d\n\x60\x60\x60\nbye".toList = none ∧
      (jsonParse "\x7b\"a\":1\x7d".toList).isSome = true) ∧
    (extractJsonFromString
        "\x60\x60\x60json\n\x7b\"a\":\"\x60\x60\x60\"\x7d\n\x60\x60\x60".toList
        = some "\x7b\"a\":\"\"\x7d".toList ∧
      (jsonParse "\x7b\"a\":\"\x60\x60\x60\"\x7d".toList).isSome = true ∧
      some "\x7b\"a\":\"\"\x7d".toList ≠ some "\x7b\"a\":\"\x60\x60\x60\"\x7d".toList) :=
  ⟨⟨rfl, rfl⟩, rfl, rfl, by decide⟩

/-! Plumbing for the amended fenced-extraction claim. -/

/-- Every list is a prefix of itself followed by anything. -/
theorem strStarts_append_self (w r : List Char) : strStarts w (w ++ r) = true := by
  induction w with
  | nil => rfl
  | cons a w' ih => simp [strStarts, ih]

/-- A backtick-free list is triple-free. -/
theorem hasTriple_of_no_btick (l : List Char) (h : ∀ x ∈ l, x ≠ btick) :
    hasTriple l = false := by
  induction l with
  | nil => rfl
  | cons a rest ih =>
    have ha : (a == btick) = false :=
      beq_eq_false_iff_ne.mpr (h a (List.mem_cons_self a rest))
    simp only [hasTriple, ha, Bool.false_and, Bool.false_or]
    exact ih (fun x hx => h x (List.mem_cons_of_mem a hx))

/-- `dropWhile` distributes over an append whose right part it fixes. -/
theorem dropWhile_append_fix (p : Char → Bool) (a b : List Char)
    (hb : b.dropWhile p = b) :
    (a ++ b).dropWhile p = a.dropWhile p ++ b := by
  induction a with
  | nil => simpa using hb
  | cons x a' ih =>
    by_cases hx : p x = true
    · simpa [List.dropWhile_cons, hx] using ih
    · simp [List.dropWhile_cons, hx]

/-- The head of an append whose left part is nonempty. -/
theorem head?_append_left (a b : List Char) (c : Char) (h : a.head? = some c) :
    (a ++ b).head? = some c := by
  cases a with
  | nil => cases h
  | cons x a' => simpa using h

/-- Elements of a `dropWhile` come from the original list. -/
theorem mem_of_mem_dropWhile (p : Char → Bool) (l : List Char) (x : Char)
    (h : x ∈ l.dropWhile p) : x ∈ l := by
  obtain ⟨k, hk⟩ := dropWhile_eq_drop p l
  rw [hk] at h
  exact List.drop_subset k l h

/-- Elements of a `dropTag` come from the original list. -/
theorem mem_of_mem_dropTag (l : List Char) (x : Char) (h : x ∈ dropTag l) :
    x ∈ l := by
  unfold dropTag at h
  split at h
  · exact List.drop_subset 4 l h
  · split at h
    · exact List.drop_subset 10 l h
    · split at h
      · exact List.drop_subset 4 l h
      · exact h

/-- `dropWhile` never lengthens a list. -/
theorem length_dropWhile_le (p : Char → Bool) (l : List Char) :
    (l.dropWhile p).length ≤ l.length := by
  obtain ⟨k, hk⟩ := dropWhile_eq_drop p l
  rw [hk, List.length_drop]
  omega

/-- `dropTag` never lengthens a list. -/
theorem length_dropTag_le (l : List Char) : (dropTag l).length ≤ l.length := by
  unfold dropTag
  split
  · simp
  · split
    · simp
    · split
      · simp
      · omega

/-- The recognized language tags are consumed exactly, leaving the newline
and everything after it. -/
theorem dropTag_recognized (tag : List Char)
    (htag : tag = "json".toList ∨ tag = "javascript".toList ∨ tag = "text".toList)
    (r : List Char) : dropTag (tag ++ '\n' :: r) = '\n' :: r := by
  rcases htag with rfl | rfl | rfl
  · rw [dropTag, if_pos (strStarts_append_self _ _)]
    rfl
  · have h1 : strStarts "json".toList ("javascript".toList ++ '\n' :: r) = false := by rfl
    rw [dropTag, if_neg (by intro hc; rw [h1] at hc; cases hc),
      if_pos (strStarts_append_self _ _)]
    rfl
  · have h1 : strStarts "json".toList ("text".toList ++ '\n' :: r) = false := by rfl
    have h2 : strStarts "javascript".toList ("text".toList ++ '\n' :: r) = false := by rfl
    rw [dropTag, if_neg (by intro hc; rw [h1] at hc; cases hc),
      if_neg (by intro hc; rw [h2] at hc; cases hc),
      if_pos (strStarts_append_self _ _)]
    rfl

/-- `idxOf?` over an append whose left part misses the character. -/
theorem idxOf?_append_of_forall_ne (ch : Char) (a b : List Char)
    (h : ∀ x ∈ a, x ≠ ch) :
    idxOf? ch (a ++ b) = (idxOf? ch b).map (· + a.length) := by
  induction a with
  | nil => simp
  | cons x a' ih =>
    have hx : (x == ch) = false :=
      beq_eq_false_iff_ne.mpr (h x (List.mem_cons_self x a'))
    rw [List.cons_append]
    rw [show idxOf? ch (x :: (a' ++ b)) = (idxOf? ch (a' ++ b)).map (· + 1) by
      simp [idxOf?, hx]]
    rw [ih (fun y hy => h y (List.mem_cons_of_mem x hy))]
    cases hb : idxOf? ch b with
    | none => simp
    | some k =>
      simp only [Option.map_some', Option.map_map, Function.comp, List.length_cons]
      refine congrArg some ?_
      omega

/-- `lastIdxOf?` misses a list missing the character. -/
theorem lastIdxOf?_eq_none (ch : Char) (l : List Char)
    (h : ∀ x ∈ l, x ≠ ch) : lastIdxOf? ch l = none := by
  induction l with
  | nil => rfl
  | cons x l' ih =>
    have hx : (x == ch) = false :=
      beq_eq_false_iff_ne.mpr (h x (List.mem_cons_self x l'))
    rw [lastIdxOf?_cons, ih (fun y hy => h y (List.mem_cons_of_mem x hy))]
    simp [hx]

/-- `lastIdxOf?` over an append whose right part misses the character. -/
theorem lastIdxOf?_append_right_none (ch : Char) (a b : List Char)
    (hb : lastIdxOf? ch b = none) :
    lastIdxOf? ch (a ++ b) = lastIdxOf? ch a := by
  induction a with
  | nil => simpa using hb
  | cons x a' ih =>
    rw [List.cons_append, lastIdxOf?_cons, ih, lastIdxOf?_cons]

/-- `lastIdxOf?` over an append with the last occurrence on the right. -/
theorem lastIdxOf?_append_left_some (ch : Char) (a b : List Char) (j : Nat)
    (hb : lastIdxOf? ch b = some j) :
    lastIdxOf? ch (a ++ b) = some (a.length + j) := by
  induction a with
  | nil => simpa using hb
  | cons x a' ih =>
    rw [List.cons_append, lastIdxOf?_cons, ih]
    simp only [List.length_cons]
    refine congrArg some ?_
    omega

/-- Exact-fuel distribution of fence removal over a backtick-free prefix. -/
theorem removeFencesF_append (a b : List Char) (f : Nat)
    (ha : ∀ x ∈ a, x ≠ btick) :
    removeFencesF (a.length + f) (a ++ b) = a ++ removeFencesF f b := by
  induction a with
  | nil => simp
  | cons x a' ih =>
    have hx : (x == btick) = false :=
      beq_eq_false_iff_ne.mpr (ha x (List.mem_cons_self x a'))
    rw [show (x :: a').length + f = (a'.length + f) + 1 by simp; omega,
      List.cons_append]
    simp only [removeFencesF, hx, Bool.false_and, Bool.false_eq_true, if_false]
    rw [ih (fun y hy => ha y (List.mem_cons_of_mem x hy))]
    rfl

/-- One non-fence character is passed through. -/
theorem removeFencesF_cons_nofence (f : Nat) (a : Char) (rest : List Char)
    (ha : (a == btick) = false) :
    removeFencesF (f + 1) (a :: rest) = a :: removeFencesF f rest := by
  simp [removeFencesF, ha]

/-- A fence marker is consumed together with its tag and whitespace. -/
theorem removeFencesF_fence (f : Nat) (rest : List Char) :
    removeFencesF (f + 1) (btick :: btick :: btick :: rest) =
      removeFencesF f (dropWS (dropTag rest)) := by
  simp [removeFencesF, startsTwoBticks, headIsBtick]

/-- The scan result does not depend on the fuel, as long as the fuel
exceeds the input length (each step consumes at least one character, and
the list handed to a recursive call is never longer than the current
tail). -/
theorem removeFencesF_fuel_irrel :
    ∀ (n : Nat) (cs : List Char) (f g : Nat), cs.length ≤ n →
      cs.length < f → cs.length < g → removeFencesF f cs = removeFencesF g cs := by
  intro n
  induction n with
  | zero =>
    intro cs f g hn hf hg
    obtain rfl : cs = [] := List.length_eq_zero.mp (Nat.le_zero.mp hn)
    simp only [List.length_nil] at hf hg
    cases f with
    | zero => omega
    | succ f' =>
      cases g with
      | zero => omega
      | succ g' => rfl
  | succ n ih =>
    intro cs f g hn hf hg
    cases cs with
    | nil =>
      simp only [List.length_nil] at hf hg
      cases f with
      | zero => omega
      | succ f' =>
        cases g with
        | zero => omega
        | succ g' => rfl
    | cons a rest =>
      simp only [List.length_cons] at hn hf hg
      cases f with
      | zero => omega
      | succ f' =>
        cases g with
        | zero => omega
        | succ g' =>
          by_cases htrip : (a == btick && startsTwoBticks rest) = true
          · simp only [removeFencesF, htrip, if_true]
            have hmidlen : (dropWS (dropTag (rest.drop 2))).length ≤ rest.length := by
              calc (dropWS (dropTag (rest.drop 2))).length
                  ≤ (dropTag (rest.drop 2)).length := length_dropWhile_le _ _
                _ ≤ (rest.drop 2).length := length_dropTag_le _
                _ ≤ rest.length := by rw [List.length_drop]; omega
            exact ih _ f' g' (by omega) (by omega) (by omega)
          · have htrip' : (a == btick && startsTwoBticks rest) = false :=
              Bool.not_eq_true _ ▸ Bool.of_not_eq_true htrip
            simp only [removeFencesF, htrip', Bool.false_eq_true, if_false]
            exact congrArg (List.cons a) (ih rest f' g' (by omega) (by omega) (by omega))

/-- Step equation of `removeFences` at a position that does not start a
fence marker. -/
theorem removeFences_cons_eq (a : Char) (rest : List Char)
    (h : (a == btick && startsTwoBticks rest) = false) :
    removeFences (a :: rest) = a :: removeFences rest := by
  show removeFencesF ((a :: rest).length + 1) (a :: rest)
      = a :: removeFencesF (rest.length + 1) rest
  simp only [List.length_cons, removeFencesF, h, Bool.false_eq_true, if_false]

/-- Step equation of `removeFences` at a fence marker: the marker and its
optional tag-and-whitespace lookahead are consumed. -/
theorem removeFences_fence_eq (rest : List Char) :
    removeFences (btick :: btick :: btick :: rest) =
      removeFences (dropWS (dropTag rest)) := by
  have hmidlen : (dropWS (dropTag rest)).length ≤ rest.length :=
    le_trans (length_dropWhile_le _ _) (length_dropTag_le _)
  have h1 : removeFences (btick :: btick :: btick :: rest)
      = removeFencesF (rest.length + 3) (dropWS (dropTag rest)) := by
    show removeFencesF ((btick :: btick :: btick :: rest).length + 1) _ = _
    simp only [List.length_cons]
    rw [show rest.length + 1 + 1 + 1 + 1 = (rest.length + 3) + 1 by omega]
    exact removeFencesF_fence (rest.length + 3) rest
  rw [h1, removeFences]
  exact removeFencesF_fuel_irrel (dropWS (dropTag rest)).length _ _ _
    le_rfl (by omega) (by omega)

/-- Every character of the scan output comes from the input (the scan only
copies or deletes). -/
theorem mem_of_mem_removeFencesF :
    ∀ (f : Nat) (cs : List Char) (x : Char), x ∈ removeFencesF f cs → x ∈ cs := by
  intro f
  induction f with
  | zero =>
    intro cs x hx
    simp only [removeFencesF] at hx
    exact absurd hx (List.not_mem_nil x)
  | succ f' ih =>
    intro cs x hx
    cases cs with
    | nil =>
      simp only [removeFencesF] at hx
      exact absurd hx (List.not_mem_nil x)
    | cons a rest =>
      by_cases htrip : (a == btick && startsTwoBticks rest) = true
      · simp only [removeFencesF, htrip, if_true] at hx
        have hx2 := ih _ x hx
        have hx3 : x ∈ dropTag (rest.drop 2) :=
          mem_of_mem_dropWhile isJsSpace _ x hx2
        have hx4 : x ∈ rest.drop 2 := mem_of_mem_dropTag _ x hx3
        exact List.mem_cons_of_mem a (List.drop_subset 2 rest hx4)
      · have htrip' : (a == btick && startsTwoBticks rest) = false :=
          Bool.not_eq_true _ ▸ Bool.of_not_eq_true htrip
        simp only [removeFencesF, htrip', Bool.false_eq_true, if_false] at hx
        rcases List.mem_cons.mp hx with rfl | hx'
        · exact List.mem_cons_self x rest
        · exact List.mem_cons_of_mem a (ih rest x hx')

/-- Every character of `removeFences cs` comes from `cs`. -/
theorem mem_of_mem_removeFences (cs : List Char) (x : Char)
    (h : x ∈ removeFences cs) : x ∈ cs :=
  mem_of_mem_removeFencesF _ cs x h

/-- Appending to a list without a leading backtick, a list without a
leading backtick, yields no leading backtick. -/
theorem headIsBtick_append (a b : List Char) (ha : headIsBtick a = false)
    (hb : headIsBtick b = false) : headIsBtick (a ++ b) = false := by
  cases a with
  | nil => simpa using hb
  | cons c a' => simpa [headIsBtick] using ha

/-- Appending cannot create two leading backticks when the left part lacks
them and the right part does not start with a backtick. -/
theorem startsTwoBticks_append (a b : List Char)
    (ha : startsTwoBticks a = false) (hb : headIsBtick b = false) :
    startsTwoBticks (a ++ b) = false := by
  cases a with
  | nil =>
    cases b with
    | nil => rfl
    | cons c b' =>
      have hc : (c == btick) = false := by simpa [headIsBtick] using hb
      simp [startsTwoBticks, hc]
  | cons y a'' =>
    rcases hy : (y == btick) with _ | _
    · simp [startsTwoBticks, hy]
    · have ha'' : headIsBtick a'' = false := by
        simpa [startsTwoBticks, hy] using ha
      simp only [List.cons_append, startsTwoBticks, hy, Bool.true_and]
      exact headIsBtick_append a'' b ha'' hb

/-- The scan distributes over an append at a triple-free prefix whose
continuation does not start with a backtick (no fence marker can start in
the prefix or span the boundary). -/
theorem removeFences_append_of_tripleFree (a b : List Char)
    (ha : hasTriple a = false) (hb : headIsBtick b = false) :
    removeFences (a ++ b) = a ++ removeFences b := by
  induction a with
  | nil => simp
  | cons x a' ih =>
    simp only [hasTriple, Bool.or_eq_false_iff] at ha
    have hcond : (x == btick && startsTwoBticks (a' ++ b)) = false := by
      rcases hx : (x == btick) with _ | _
      · simp
      · have hsa : startsTwoBticks a' = false := by simpa [hx] using ha.1
        simp only [Bool.true_and]
        exact startsTwoBticks_append a' b hsa hb
    rw [List.cons_append, removeFences_cons_eq x (a' ++ b) hcond, ih ha.2]
    rfl

/-- `dropTag` is the identity on a backtick-headed list (no tag word starts
with a backtick). -/
theorem dropTag_btick_head (l : List Char) (h : headIsBtick l = true) :
    dropTag l = l := by
  cases l with
  | nil => cases h
  | cons c l' =>
    obtain rfl : c = btick := beq_iff_eq.mp (by simpa [headIsBtick] using h)
    have h1 : strStarts "json".toList (btick :: l') = false := by rfl
    have h2 : strStarts "javascript".toList (btick :: l') = false := by rfl
    have h3 : strStarts "text".toList (btick :: l') = false := by rfl
    rw [dropTag, if_neg (by intro hc; rw [h1] at hc; cases hc),
      if_neg (by intro hc; rw [h2] at hc; cases hc),
      if_neg (by intro hc; rw [h3] at hc; cases hc)]

/-- A backtick-free literal prefix check over an append whose right part
starts with a backtick is confined to the left part. -/
theorem strStarts_length_le (w : List Char) (hw : ∀ x ∈ w, x ≠ btick) :
    ∀ (u v : List Char), headIsBtick v = true → strStarts w (u ++ v) = true →
      w.length ≤ u.length := by
  induction w with
  | nil => intro u v _ _; simp
  | cons c w' ih =>
    intro u v hv hs
    cases u with
    | nil =>
      cases v with
      | nil => cases hv
      | cons d v' =>
        obtain rfl : d = btick := beq_iff_eq.mp (by simpa [headIsBtick] using hv)
        simp only [List.nil_append, strStarts, Bool.and_eq_true, beq_iff_eq] at hs
        exact absurd hs.1 (hw c (List.mem_cons_self c w'))
    | cons d u' =>
      simp only [List.cons_append, strStarts, Bool.and_eq_true] at hs
      have := ih (fun x hx => hw x (List.mem_cons_of_mem c hx)) u' v hv hs.2
      simp only [List.length_cons]
      omega

/-- `dropTag` over an append whose right part starts with a backtick
consumes characters of the left part only. -/
theorem dropTag_append_bounded (u v : List Char) (hv : headIsBtick v = true) :
    ∃ k, dropTag (u ++ v) = u.drop k ++ v := by
  rw [dropTag]
  by_cases h1 : strStarts "json".toList (u ++ v) = true
  · rw [if_pos h1]
    have hle : 4 ≤ u.length := by
      simpa using strStarts_length_le "json".toList (by decide) u v hv h1
    exact ⟨4, List.drop_append_of_le_length hle⟩
  · rw [if_neg h1]
    by_cases h2 : strStarts "javascript".toList (u ++ v) = true
    · rw [if_pos h2]
      have hle : 10 ≤ u.length := by
        simpa using strStarts_length_le "javascript".toList (by decide) u v hv h2
      exact ⟨10, List.drop_append_of_le_length hle⟩
    · rw [if_neg h2]
      by_cases h3 : strStarts "text".toList (u ++ v) = true
      · rw [if_pos h3]
        have hle : 4 ≤ u.length := by
          simpa using strStarts_length_le "text".toList (by decide) u v hv h3
        exact ⟨4, List.drop_append_of_le_length hle⟩
      · rw [if_neg h3]
        exact ⟨0, by simp⟩

/-- Facts about the recognized language tags needed by the scan analysis:
they are triple-free, contain no structural delimiter, and never begin
with a backtick, even when followed by arbitrary text. -/
theorem tag_facts (tag : List Char)
    (htag : tag = "json".toList ∨ tag = "javascript".toList ∨ tag = "text".toList) :
    hasTriple tag = false ∧
      (∀ x ∈ tag, x ≠ '\x7b' ∧ x ≠ '\x7d' ∧ x ≠ '[' ∧ x ≠ ']') ∧
      (∀ X : List Char, startsTwoBticks (tag ++ X) = false ∧
        headIsBtick (tag ++ X) = false) := by
  rcases htag with rfl | rfl | rfl <;>
    exact ⟨by decide, by decide, fun X => ⟨by rfl, by rfl⟩⟩

/-- Scanning the closing-fence tail: the newline survives and the closing
fence is consumed together with its tag-and-whitespace lookahead into the
trailing text. -/
theorem removeFences_closing (post : List Char) :
    removeFences ('\n' :: btick :: btick :: btick :: post) =
      '\n' :: removeFences (dropWS (dropTag post)) := by
  rw [removeFences_cons_eq '\n' _
      (by simp [show ('\n' == btick) = false from by decide]),
    removeFences_fence_eq]

/-- Scanning the fenced block from its language tag onward: the tag text,
the newline and the content pass through, and the closing fence is
consumed. -/
theorem removeFences_tagblock (tag content post : List Char)
    (htag : tag = "json".toList ∨ tag = "javascript".toList ∨ tag = "text".toList)
    (hcT : hasTriple content = false) :
    removeFences (tag ++ '\n' :: (content ++ '\n' :: btick :: btick :: btick :: post)) =
      tag ++ '\n' :: (content ++ '\n' :: removeFences (dropWS (dropTag post))) := by
  obtain ⟨htagT, -, -⟩ := tag_facts tag htag
  rw [removeFences_append_of_tripleFree tag _ htagT
      (by simp [headIsBtick, show ('\n' == btick) = false from by decide]),
    removeFences_cons_eq '\n' _
      (by simp [show ('\n' == btick) = false from by decide]),
    removeFences_append_of_tripleFree content _ hcT
      (by simp [headIsBtick, show ('\n' == btick) = false from by decide]),
    removeFences_closing post]

/-- Scanning the whole fenced block with no preceding prose. -/
theorem removeFences_fencehead (tag content post : List Char)
    (htag : tag = "json".toList ∨ tag = "javascript".toList ∨ tag = "text".toList)
    (hcT : hasTriple content = false)
    (hc0 : ∃ c0, content.head? = some c0 ∧ isJsSpace c0 = false) :
    removeFences (btick :: btick :: btick ::
        (tag ++ '\n' :: (content ++ '\n' :: btick :: btick :: btick :: post))) =
      content ++ '\n' :: removeFences (dropWS (dropTag post)) := by
  obtain ⟨c0, hh, hws0⟩ := hc0
  rw [removeFences_fence_eq, dropTag_recognized tag htag]
  rw [show dropWS ('\n' :: (content ++ '\n' :: btick :: btick :: btick :: post))
      = content ++ '\n' :: btick :: btick :: btick :: post from by
    rw [dropWS, List.dropWhile_cons, if_pos (by decide)]
    exact dropWhile_eq_self_of_head _ _ c0 (head?_append_left _ _ _ hh) hws0]
  rw [removeFences_append_of_tripleFree content _ hcT
      (by simp [headIsBtick, show ('\n' == btick) = false from by decide]),
    removeFences_closing post]

/-- Generic prose-scan induction: for a fenced remainder `FR` that begins
with a backtick (hence is immune to whitespace skipping and never matches a
tag word), whose scans from zero, one and two extra leading backticks all
produce the target result up to a delimiter-free residue, prepending any
prose free of structural delimiters (backticks allowed) still produces the
target result up to a delimiter-free residue. -/
theorem removeFences_prose_aux (FR RES : List Char)
    (hFRhead : headIsBtick FR = true)
    (hFRws : FR.dropWhile isJsSpace = FR)
    (h0 : removeFences FR = RES)
    (h1 : ∃ A1, (∀ x ∈ A1, x ≠ '\x7b' ∧ x ≠ '\x7d' ∧ x ≠ '[' ∧ x ≠ ']') ∧
      removeFences (btick :: FR) = A1 ++ RES)
    (h2 : ∃ A2, (∀ x ∈ A2, x ≠ '\x7b' ∧ x ≠ '\x7d' ∧ x ≠ '[' ∧ x ≠ ']') ∧
      removeFences (btick :: btick :: FR) = A2 ++ RES) :
    ∀ (n : Nat) (pre : List Char), pre.length ≤ n →
      (∀ x ∈ pre, x ≠ '\x7b' ∧ x ≠ '\x7d' ∧ x ≠ '[' ∧ x ≠ ']') →
      ∃ A, (∀ x ∈ A, x ≠ '\x7b' ∧ x ≠ '\x7d' ∧ x ≠ '[' ∧ x ≠ ']') ∧
        removeFences (pre ++ FR) = A ++ RES := by
  intro n
  induction n with
  | zero =>
    intro pre hn _
    obtain rfl : pre = [] := List.length_eq_zero.mp (Nat.le_zero.mp hn)
    exact ⟨[], by simp, by simpa using h0⟩
  | succ n ih =>
    intro pre hn hpre
    cases pre with
    | nil => exact ⟨[], by simp, by simpa using h0⟩
    | cons x pre' =>
      simp only [List.length_cons] at hn
      by_cases htrip : (x == btick && startsTwoBticks (pre' ++ FR)) = true
      · rw [Bool.and_eq_true] at htrip
        obtain rfl : x = btick := beq_iff_eq.mp htrip.1
        cases pre' with
        | nil => simpa using h1
        | cons y pre'' =>
          have hy2 := htrip.2
          cases pre'' with
          | nil =>
            obtain rfl : y = btick := by
              simp only [List.cons_append, List.nil_append, startsTwoBticks,
                Bool.and_eq_true] at hy2
              exact beq_iff_eq.mp hy2.1
            simpa using h2
          | cons z pre3 =>
            obtain ⟨rfl, rfl⟩ : y = btick ∧ z = btick := by
              simp only [List.cons_append, startsTwoBticks, headIsBtick,
                Bool.and_eq_true] at hy2
              exact ⟨beq_iff_eq.mp hy2.1, beq_iff_eq.mp hy2.2⟩
            obtain ⟨k, hk⟩ := dropTag_append_bounded pre3 FR hFRhead
            have hlen : ((pre3.drop k).dropWhile isJsSpace).length ≤ n := by
              have t1 := length_dropWhile_le isJsSpace (pre3.drop k)
              have t2 : (pre3.drop k).length ≤ pre3.length := by
                rw [List.length_drop]; omega
              simp only [List.length_cons] at hn
              omega
            obtain ⟨A, hA, hEq⟩ := ih ((pre3.drop k).dropWhile isJsSpace) hlen
              (fun w hw => hpre w (List.mem_cons_of_mem btick
                (List.mem_cons_of_mem btick (List.mem_cons_of_mem btick
                  (List.drop_subset k pre3 (mem_of_mem_dropWhile _ _ _ hw))))))
            refine ⟨A, hA, ?_⟩
            show removeFences (btick :: btick :: btick :: (pre3 ++ FR)) = A ++ RES
            rw [removeFences_fence_eq (pre3 ++ FR), hk, dropWS,
              dropWhile_append_fix isJsSpace (pre3.drop k) FR hFRws]
            exact hEq
      · have htrip' : (x == btick && startsTwoBticks (pre' ++ FR)) = false :=
          Bool.not_eq_true _ ▸ Bool.of_not_eq_true htrip
        obtain ⟨A, hA, hEq⟩ := ih pre' (by omega)
          (fun y hy => hpre y (List.mem_cons_of_mem x hy))
        refine ⟨x :: A, ?_, ?_⟩
        · intro y hy
          rcases List.mem_cons.mp hy with rfl | hy'
          · exact hpre y (List.mem_cons_self y pre')
          · exact hA y hy'
        · rw [List.cons_append, removeFences_cons_eq x (pre' ++ FR) htrip', hEq]
          rfl

/-- Scanning prose (free of structural delimiters, backticks allowed)
followed by a tagged fenced block holding triple-free content: the content
survives intact, preceded by a delimiter-free residue.  Backtick runs in
the prose may merge with the opening fence, but every leftover character
(spare backticks, tag text exposed by a consumed fence) lands in the
residue. -/
theorem removeFences_prose_fenced (tag content post : List Char)
    (htag : tag = "json".toList ∨ tag = "javascript".toList ∨ tag = "text".toList)
    (hcT : hasTriple content = false)
    (hc0 : ∃ c0, content.head? = some c0 ∧ isJsSpace c0 = false)
    (n : Nat) (pre : List Char) (hn : pre.length ≤ n)
    (hpre : ∀ x ∈ pre, x ≠ '\x7b' ∧ x ≠ '\x7d' ∧ x ≠ '[' ∧ x ≠ ']') :
    ∃ A, (∀ x ∈ A, x ≠ '\x7b' ∧ x ≠ '\x7d' ∧ x ≠ '[' ∧ x ≠ ']') ∧
      removeFences (pre ++ btick :: btick :: btick ::
          (tag ++ '\n' :: (content ++ '\n' :: btick :: btick :: btick :: post)))
        = A ++ (content ++ '\n' :: removeFences (dropWS (dropTag post))) := by
  obtain ⟨htagT, htagD, htagS⟩ := tag_facts tag htag
  have hcond1 : (btick == btick && startsTwoBticks
      (tag ++ '\n' :: (content ++ '\n' :: btick :: btick :: btick :: post))) = false := by
    simp [(htagS ('\n' :: (content ++ '\n' :: btick :: btick :: btick :: post))).1]
  have hcond2 : (btick == btick && startsTwoBticks (btick ::
      (tag ++ '\n' :: (content ++ '\n' :: btick :: btick :: btick :: post)))) = false := by
    simp [startsTwoBticks,
      (htagS ('\n' :: (content ++ '\n' :: btick :: btick :: btick :: post))).2]
  have hA1 : ∀ x ∈ btick :: tag ++ ['\n'],
      x ≠ '\x7b' ∧ x ≠ '\x7d' ∧ x ≠ '[' ∧ x ≠ ']' := by
    intro x hx
    simp only [List.cons_append, List.mem_cons, List.mem_append,
      List.mem_singleton, List.not_mem_nil, or_false] at hx
    rcases hx with rfl | hx' | rfl
    · exact ⟨by decide, by decide, by decide, by decide⟩
    · exact htagD x hx'
    · exact ⟨by decide, by decide, by decide, by decide⟩
  have hA2 : ∀ x ∈ btick :: btick :: tag ++ ['\n'],
      x ≠ '\x7b' ∧ x ≠ '\x7d' ∧ x ≠ '[' ∧ x ≠ ']' := by
    intro x hx
    simp only [List.cons_append, List.mem_cons, List.mem_append,
      List.mem_singleton, List.not_mem_nil, or_false] at hx
    rcases hx with rfl | rfl | hx' | rfl
    · exact ⟨by decide, by decide, by decide, by decide⟩
    · exact ⟨by decide, by decide, by decide, by decide⟩
    · exact htagD x hx'
    · exact ⟨by decide, by decide, by decide, by decide⟩
  have h1 : removeFences (btick :: btick :: btick :: btick ::
      (tag ++ '\n' :: (content ++ '\n' :: btick :: btick :: btick :: post)))
      = (btick :: tag ++ ['\n']) ++
        (content ++ '\n' :: removeFences (dropWS (dropTag post))) := by
    rw [removeFences_fence_eq,
      dropTag_btick_head
        (btick :: (tag ++ '\n' :: (content ++ '\n' :: btick :: btick :: btick :: post)))
        rfl,
      dropWS,
      dropWhile_eq_self_of_head isJsSpace
        (btick :: (tag ++ '\n' :: (content ++ '\n' :: btick :: btick :: btick :: post)))
        btick rfl (by decide),
      removeFences_cons_eq btick _ hcond1,
      removeFences_tagblock tag content post htag hcT]
    simp
  have h2 : removeFences (btick :: btick :: btick :: btick :: btick ::
      (tag ++ '\n' :: (content ++ '\n' :: btick :: btick :: btick :: post)))
      = (btick :: btick :: tag ++ ['\n']) ++
        (content ++ '\n' :: removeFences (dropWS (dropTag post))) := by
    rw [removeFences_fence_eq,
      dropTag_btick_head
        (btick :: btick ::
          (tag ++ '\n' :: (content ++ '\n' :: btick :: btick :: btick :: post)))
        rfl,
      dropWS,
      dropWhile_eq_self_of_head isJsSpace
        (btick :: btick ::
          (tag ++ '\n' :: (content ++ '\n' :: btick :: btick :: btick :: post)))
        btick rfl (by decide),
      removeFences_cons_eq btick _ hcond2,
      removeFences_cons_eq btick _ hcond1,
      removeFences_tagblock tag content post htag hcT]
    simp
  exact removeFences_prose_aux
    (btick :: btick :: btick ::
      (tag ++ '\n' :: (content ++ '\n' :: btick :: btick :: btick :: post)))
    (content ++ '\n' :: removeFences (dropWS (dropTag post)))
    rfl
    (dropWhile_eq_self_of_head isJsSpace _ btick rfl (by decide))
    (removeFences_fencehead tag content post htag hcT hc0)
    ⟨btick :: tag ++ ['\n'], hA1, h1⟩
    ⟨btick :: btick :: tag ++ ['\n'], hA2, h2⟩
    n pre hn hpre

/-- Trimming a concatenation whose middle part has non-whitespace ends
trims the outer parts only. -/
theorem jsTrim_concat (W content T : List Char)
    (hh : ∃ c0, content.head? = some c0 ∧ isJsSpace c0 = false)
    (hl : ∃ c1, content.getLast? = some c1 ∧ isJsSpace c1 = false) :
    jsTrim (W ++ content ++ T) =
      W.dropWhile isJsSpace ++ content ++ (T.reverse.dropWhile isJsSpace).reverse := by
  obtain ⟨c0, hc0, hs0⟩ := hh
  obtain ⟨c1, hc1, hs1⟩ := hl
  have hfix1 : (content ++ T).dropWhile isJsSpace = content ++ T :=
    dropWhile_eq_self_of_head _ _ c0 (head?_append_left _ _ _ hc0) hs0
  have hrevhead : content.reverse.head? = some c1 := by
    rw [List.head?_reverse]; exact hc1
  have hfix2 : (content.reverse ++ (W.dropWhile isJsSpace).reverse).dropWhile isJsSpace
      = content.reverse ++ (W.dropWhile isJsSpace).reverse :=
    dropWhile_eq_self_of_head _ _ c1 (head?_append_left _ _ _ hrevhead) hs1
  have hleft : (W ++ content ++ T).dropWhile isJsSpace
      = W.dropWhile isJsSpace ++ (content ++ T) := by
    rw [List.append_assoc]
    exact dropWhile_append_fix _ _ _ hfix1
  rw [jsTrim, hleft,
    show (W.dropWhile isJsSpace ++ (content ++ T)).reverse
      = T.reverse ++ (content.reverse ++ (W.dropWhile isJsSpace).reverse) by
    simp [List.reverse_append, List.append_assoc],
    dropWhile_append_fix _ _ _ hfix2]
  simp [List.reverse_append, List.append_assoc]

/-- When the cleaned text decomposes into delimiter-free prose around a
delimiter-bracketed middle, the slice is exactly the middle. -/
theorem sliceCandidate_decomposed (input P content R : List Char) (o c : Char)
    (hclean : jsTrim (removeFences input) = P ++ content ++ R)
    (hpair : (o, c) = ('{', '}') ∨ (o, c) = ('[', ']'))
    (hh : content.head? = some o) (hl : content.getLast? = some c)
    (hP : ∀ x ∈ P, x ≠ '{' ∧ x ≠ '}' ∧ x ≠ '[' ∧ x ≠ ']')
    (hR : ∀ x ∈ R, x ≠ '{' ∧ x ≠ '}' ∧ x ≠ '[' ∧ x ≠ ']') :
    sliceCandidate input = some content := by
  have hcne : content ≠ [] := by intro hx; rw [hx] at hh; cases hh
  have hclen : 0 < content.length := List.length_pos.mpr hcne
  have harith : P.length + (content.length - 1) + 1 - P.length = content.length := by
    omega
  have hslice : ((P ++ content ++ R).drop P.length).take
      (P.length + (content.length - 1) + 1 - P.length) = content := by
    rw [harith, List.append_assoc, List.drop_left, List.take_left ..]
  rcases hpair with hp | hp <;> rw [Prod.mk.injEq] at hp <;> obtain ⟨rfl, rfl⟩ := hp
  · obtain ⟨ct, rfl⟩ : ∃ ct, content = '{' :: ct := by
      cases content with
      | nil => exact absurd rfl hcne
      | cons a ct => exact ⟨ct, by simpa using congrArg (List.cons · ct) (by simpa using hh : a = '{')⟩
    have hfirst : idxOf? '{' (P ++ '{' :: ct ++ R) = some P.length := by
      rw [List.append_assoc,
        idxOf?_append_of_forall_ne '{' P _ (fun x hx => (hP x hx).1)]
      simp [idxOf?]
    have hat : (P ++ '{' :: ct ++ R)[P.length]? = some '{' := by
      rw [List.append_assoc, List.getElem?_append_right (le_refl P.length),
        Nat.sub_self]
      simp
    have hlastIdx : lastIdxOf? '}' (P ++ '{' :: ct ++ R)
        = some (P.length + (('{' :: ct).length - 1)) := by
      rw [lastIdxOf?_append_right_none '}' _ R
          (lastIdxOf?_eq_none '}' R (fun x hx => (hR x hx).2.1)),
        lastIdxOf?_append_left_some '}' P _ _ (lastIdxOf?_getLast '}' _ hl)]
    simp only [sliceCandidate, hclean, hfirst]
    cases hbra : idxOf? '[' (P ++ '{' :: ct ++ R) with
    | none =>
      dsimp only
      rw [if_pos hat, hlastIdx]
      dsimp only
      rw [if_neg (by simp only [List.length_cons]; omega)]
      rw [show ((P ++ '{' :: ct ++ R).drop P.length).take
          (P.length + (('{' :: ct).length - 1) + 1 - P.length) = '{' :: ct from hslice]
    | some m =>
      have hm : P.length < m := by
        rw [List.append_assoc,
          idxOf?_append_of_forall_ne '[' P _ (fun x hx => (hP x hx).2.2.1)] at hbra
        simp only [List.cons_append, idxOf?, show ('{' == '[') = false by decide,
          Bool.false_eq_true, if_false, Option.map_map, Option.map_eq_some'] at hbra
        obtain ⟨k, -, hk⟩ := hbra
        simp only [Function.comp] at hk
        omega
      dsimp only
      rw [if_pos hm]
      dsimp only
      rw [if_pos hat, hlastIdx]
      dsimp only
      rw [if_neg (by simp only [List.length_cons]; omega)]
      rw [show ((P ++ '{' :: ct ++ R).drop P.length).take
          (P.length + (('{' :: ct).length - 1) + 1 - P.length) = '{' :: ct from hslice]
  · obtain ⟨ct, rfl⟩ : ∃ ct, content = '[' :: ct := by
      cases content with
      | nil => exact absurd rfl hcne
      | cons a ct => exact ⟨ct, by simpa using congrArg (List.cons · ct) (by simpa using hh : a = '[')⟩
    have hfirst : idxOf? '[' (P ++ '[' :: ct ++ R) = some P.length := by
      rw [List.append_assoc,
        idxOf?_append_of_forall_ne '[' P _ (fun x hx => (hP x hx).2.2.1)]
      simp [idxOf?]
    have hat : (P ++ '[' :: ct ++ R)[P.length]? = some '[' := by
      rw [List.append_assoc, List.getElem?_append_right (le_refl P.length),
        Nat.sub_self]
      simp
    have hat' : ¬((P ++ '[' :: ct ++ R)[P.length]? = some '{') := by
      rw [hat]; simp
    have hlastIdx : lastIdxOf? ']' (P ++ '[' :: ct ++ R)
        = some (P.length + (('[' :: ct).length - 1)) := by
      rw [lastIdxOf?_append_right_none ']' _ R
          (lastIdxOf?_eq_none ']' R (fun x hx => (hR x hx).2.2.2)),
        lastIdxOf?_append_left_some ']' P _ _ (lastIdxOf?_getLast ']' _ hl)]
    simp only [sliceCandidate, hclean, hfirst]
    cases hbrace : idxOf? '{' (P ++ '[' :: ct ++ R) with
    | none =>
      dsimp only
      rw [if_neg hat', if_pos hat, hlastIdx]
      dsimp only
      rw [if_neg (by simp only [List.length_cons]; omega)]
      rw [show ((P ++ '[' :: ct ++ R).drop P.length).take
          (P.length + (('[' :: ct).length - 1) + 1 - P.length) = '[' :: ct from hslice]
    | some m =>
      have hm : P.length < m := by
        rw [List.append_assoc,
          idxOf?_append_of_forall_ne '{' P _ (fun x hx => (hP x hx).1)] at hbrace
        simp only [List.cons_append, idxOf?, show ('[' == '{') = false by decide,
          Bool.false_eq_true, if_false, Option.map_map, Option.map_eq_some'] at hbrace
        obtain ⟨k, -, hk⟩ := hbrace
        simp only [Function.comp] at hk
        omega
      dsimp only
      rw [if_neg (by omega)]
      dsimp only
      rw [if_neg hat', if_pos hat, hlastIdx]
      dsimp only
      rw [if_neg (by simp only [List.length_cons]; omega)]
      rw [show ((P ++ '[' :: ct ++ R).drop P.length).take
          (P.length + (('[' :: ct).length - 1) + 1 - P.length) = '[' :: ct from hslice]

/-- Claim C4 (amended): for reply text consisting of a parseable structured
document wrapped in a markdown fenced block bearing a recognized language
tag (json, javascript or text), where the document contains no run of three
consecutive backticks and the prose before and after the block contains no
structural delimiters, the extractor returns exactly the enclosed
structure, independent of that prose; backticks in the prose are harmless. -/
theorem claim_C4_amended (pre tag content post : List Char)
    (hpre : ∀ x ∈ pre, x ≠ '\x7b' ∧ x ≠ '\x7d' ∧ x ≠ '[' ∧ x ≠ ']')
    (hpost : ∀ x ∈ post, x ≠ '\x7b' ∧ x ≠ '\x7d' ∧ x ≠ '[' ∧ x ≠ ']')
    (htag : tag = "json".toList ∨ tag = "javascript".toList ∨ tag = "text".toList)
    (hcont : hasTriple content = false)
    (hpair : content.head? = some '\x7b' ∧ content.getLast? = some '\x7d' ∨
             content.head? = some '[' ∧ content.getLast? = some ']')
    (hparse : (jsonParse content).isSome = true) :
    extractJsonFromString
        (pre ++ btick :: btick :: btick ::
          (tag ++ '\n' :: (content ++ '\n' :: btick :: btick :: btick :: post)))
      = some content := by
  obtain ⟨o, c, hpairOr, hh, hl, hso, hsc⟩ :
      ∃ o c, ((o, c) = ('\x7b', '\x7d') ∨ (o, c) = ('[', ']')) ∧
        content.head? = some o ∧ content.getLast? = some c ∧
        isJsSpace o = false ∧ isJsSpace c = false := by
    rcases hpair with ⟨h1, h2⟩ | ⟨h1, h2⟩
    · exact ⟨'\x7b', '\x7d', Or.inl rfl, h1, h2, by decide, by decide⟩
    · exact ⟨'[', ']', Or.inr rfl, h1, h2, by decide, by decide⟩
  have hcne : content ≠ [] := by intro hx; rw [hx] at hh; cases hh
  set Z : List Char := removeFences (dropWS (dropTag post)) with hZdef
  set T : List Char := '\n' :: Z with hTdef
  have hZpost : ∀ x ∈ Z, x ∈ post := fun x hx =>
    mem_of_mem_dropTag post x (mem_of_mem_dropWhile isJsSpace (dropTag post) x
      (mem_of_mem_removeFences _ x hx))
  obtain ⟨A, hAd, hrfA⟩ := removeFences_prose_fenced tag content post htag hcont
    ⟨o, hh, hso⟩ pre.length pre le_rfl hpre
  have hrf : removeFences
      (pre ++ btick :: btick :: btick ::
        (tag ++ '\n' :: (content ++ '\n' :: btick :: btick :: btick :: post)))
      = A ++ (content ++ T) := hrfA
  have hclean : jsTrim (removeFences
      (pre ++ btick :: btick :: btick ::
        (tag ++ '\n' :: (content ++ '\n' :: btick :: btick :: btick :: post))))
      = A.dropWhile isJsSpace ++ content ++ (T.reverse.dropWhile isJsSpace).reverse := by
    rw [hrf, ← List.append_assoc]
    exact jsTrim_concat A content T ⟨o, hh, hso⟩ ⟨c, hl, hsc⟩
  have hPd : ∀ x ∈ A.dropWhile isJsSpace,
      x ≠ '\x7b' ∧ x ≠ '\x7d' ∧ x ≠ '[' ∧ x ≠ ']' := fun x hx =>
    hAd x (mem_of_mem_dropWhile _ _ _ hx)
  have hRd : ∀ x ∈ (T.reverse.dropWhile isJsSpace).reverse,
      x ≠ '\x7b' ∧ x ≠ '\x7d' ∧ x ≠ '[' ∧ x ≠ ']' := by
    intro x hx
    have hxT : x ∈ T := by
      rw [List.mem_reverse] at hx
      have := mem_of_mem_dropWhile _ _ _ hx
      rwa [List.mem_reverse] at this
    rw [hTdef] at hxT
    rcases List.mem_cons.mp hxT with rfl | hxZ
    · exact ⟨by decide, by decide, by decide, by decide⟩
    · have hxpost := hZpost x hxZ
      exact ⟨(hpost x hxpost).1, (hpost x hxpost).2.1,
        (hpost x hxpost).2.2.1, (hpost x hxpost).2.2.2⟩
  have hsl := sliceCandidate_decomposed _ _ content _ o c hclean hpairOr hh hl hPd hRd
  have hemp : content.isEmpty = false := by
    cases content with
    | nil => exact absurd rfl hcne
    | cons a ct => rfl
  unfold extractJsonFromString
  rw [hsl]
  dsimp only
  rw [if_neg (by rw [hemp]; exact Bool.false_ne_true), if_pos hparse]

/-- Claim C4 amended witness: a concrete prose-wrapped `json`-tagged fenced
object is extracted exactly, with single backticks both in the surrounding
prose and inside a string of the enclosed document. -/
theorem claim_C4_amended_witness :
    extractJsonFromString
        ("See \x60notes\x60: ".toList ++ btick :: btick :: btick ::
          ("json".toList ++ '\n' ::
            ("\x7b\"a\":\"\x60x\x60\"\x7d".toList ++ '\n' :: btick :: btick :: btick ::
              " done".toList)))
      = some "\x7b\"a\":\"\x60x\x60\"\x7d".toList :=
  claim_C4_amended "See \x60notes\x60: ".toList "json".toList
    "\x7b\"a\":\"\x60x\x60\"\x7d".toList " done".toList (by decide) (by decide)
    (Or.inl rfl) (by decide) (Or.inl ⟨rfl, rfl⟩) rfl

end ClaimTheorems

end ItineraryPipeline
